import Mathlib

/-!
# Battery meter: `batt_update.c`

A shallow embedding of the three functions of `src/batt_update.c`

* `set_batt_from_ports`   (lines 3-45),
* `set_display_from_batt` (lines 48-116),
* `batt_update`           (lines 119-136),

followed by theorems about them.

Modelling conventions.

* C `int` values are `Int`.  No operation of the file can overflow a 32-bit
  `int` on the inputs considered (the largest constant built is
  `0b11111 << 24 < 2^29`), so no wrap-around is modelled.
* `x >> k` is the arithmetic shift `Int.shiftRight` (rounds toward minus
  infinity); `x << k` on a non-negative `x` is `x * 2^k`; `&` and `|` are
  `Int.land` and `Int.lor`; `/` and `%` are the truncating `Int.tdiv` and
  `Int.tmod` of C.
* Reading `bitmasks[i]` outside `0..9` is undefined behaviour in C; the
  lookup returns `none` there and the functions that perform it return an
  `Option`.
* The header `batt.h` is not part of the sources.  The record `batt_t` and the
  three global ports are taken with exactly the fields and names that
  `batt_update.c` uses, all of integer type.
-/

namespace BattUpdate

/-! ## Data model -/

/-- The record `batt_t` as used through `batt->mlvolts`, `batt->percent`, `batt->mode`. -/
structure batt_t where
  mlvolts : Int
  percent : Int
  mode : Int
deriving DecidableEq, Repr

/-- The three global variables (memory-mapped ports) the file refers to. -/
structure Ports where
  BATT_VOLTAGE_PORT : Int
  BATT_STATUS_PORT : Int
  BATT_DISPLAY_PORT : Int
deriving DecidableEq, Repr

/-- C `x << k` for a non-negative `x` whose result is representable. -/
def shl (x : Int) (k : Nat) : Int := x * 2 ^ k

/-- C `x >> k` on a signed `int` (arithmetic shift). -/
def shr (x : Int) (k : Nat) : Int := Int.shiftRight x k

/-! ## `set_batt_from_ports` (lines 3-45) -/

/-- Lines 25-44.  The result is the returned `int`, the record `*batt` after the call and the
global ports after the call (the function never assigns a global). -/
def set_batt_from_ports (g : Ports) (batt : batt_t) : Int × batt_t × Ports :=
  if g.BATT_VOLTAGE_PORT < 0 then
    (1, batt, g)
  else
    let batt := { batt with mlvolts := shr g.BATT_VOLTAGE_PORT 1 }
    let batt :=
      if shr (batt.mlvolts - 3000) 3 > 100 then
        { batt with percent := 100 }
      else if shr (batt.mlvolts - 3000) 3 < 0 then
        { batt with percent := 0 }
      else
        { batt with percent := shr (batt.mlvolts - 3000) 3 }
    let batt :=
      if Int.land g.BATT_STATUS_PORT (shl 1 4) ≠ 0 then
        { batt with mode := 1 }
      else
        { batt with mode := 2 }
    (0, batt, g)

/-! ## `set_display_from_batt` (lines 48-116) -/

/-- Lines 67-68: the local table `bitmasks`. -/
def bitmasks : List Int :=
  [0b0111111, 0b0000110, 0b1011011, 0b1001111, 0b1100110, 0b1101101, 0b1111101,
   0b0000111, 0b1111111, 0b1101111]

/-- The array read `bitmasks[i]`: defined for `0 ≤ i < 10` only. -/
def bitmasks_at (i : Int) : Option Int :=
  if 0 ≤ i then bitmasks.get? i.toNat else none

/-- Lines 72-80: the value of the local `right` before the mode test. -/
def right_rounded (voltage : Int) : Int :=
  let extradigit := Int.tmod voltage 10
  if extradigit ≥ 5 then
    Int.tmod (Int.tdiv voltage 10) 10 + 1
  else
    Int.tmod (Int.tdiv voltage 10) 10

/-- Line 82: `middle` in the `batt.mode == 2` branch. -/
def volt_middle (voltage : Int) : Int :=
  Int.tmod (Int.tdiv (Int.tdiv voltage 10) 10) 10

/-- Line 83: `left` in the `batt.mode == 2` branch. -/
def volt_left (voltage : Int) : Int :=
  Int.tdiv (Int.tdiv (Int.tdiv voltage 10) 10) 10

/-- Lines 81-109: the digit and indicator part of the word, starting from `*display`. -/
def set_digits (batt : batt_t) (display : Int) : Option Int :=
  let percentage := batt.percent
  let voltage := batt.mlvolts
  let right := right_rounded voltage
  if batt.mode = 2 then do
    let middle := volt_middle voltage
    let left := volt_left voltage
    let display := Int.lor display (shl 0b110 0)
    let display := Int.lor display (shl (← bitmasks_at right) 3)
    let display := Int.lor display (shl (← bitmasks_at middle) 10)
    let display := Int.lor display (shl (← bitmasks_at left) 17)
    pure display
  else if batt.percent = 100 ∧ batt.mode = 1 then do
    let right := Int.tmod percentage 10
    let middle := Int.tmod (Int.tdiv percentage 10) 10
    let left := Int.tmod (Int.tdiv (Int.tdiv percentage 10) 10) 10
    let display := Int.lor display (shl 0b001 0)
    let display := Int.lor display (shl (← bitmasks_at right) 3)
    let display := Int.lor display (shl (← bitmasks_at middle) 10)
    let display := Int.lor display (shl (← bitmasks_at left) 17)
    pure display
  else if batt.percent ≥ 10 ∧ batt.percent ≤ 99 ∧ batt.mode = 1 then do
    let right := Int.tmod percentage 10
    let middle := Int.tdiv percentage 10
    let display := Int.lor display (shl 0b001 0)
    let display := Int.lor display (shl (← bitmasks_at right) 3)
    let display := Int.lor display (shl (← bitmasks_at middle) 10)
    let display := Int.lor display (shl 0b0000000 17)
    pure display
  else do
    let right := Int.tmod percentage 10
    let display := Int.lor display (shl 0b001 0)
    let display := Int.lor display (shl (← bitmasks_at right) 3)
    let display := Int.lor display (shl 0b0000000 10)
    let display := Int.lor display (shl 0b0000000 17)
    pure display

/-- Lines 110-114: the five bar tests, applied in order to `*display`. -/
def set_bars (batt : batt_t) (display : Int) : Int :=
  let display :=
    if batt.percent ≥ 5 ∧ batt.percent ≤ 29 then Int.lor display (shl 0b00001 24) else display
  let display :=
    if batt.percent ≥ 30 ∧ batt.percent ≤ 49 then Int.lor display (shl 0b00011 24) else display
  let display :=
    if batt.percent ≥ 50 ∧ batt.percent ≤ 69 then Int.lor display (shl 0b00111 24) else display
  let display :=
    if batt.percent ≥ 70 ∧ batt.percent ≤ 89 then Int.lor display (shl 0b01111 24) else display
  let display :=
    if batt.percent ≥ 90 ∧ batt.percent ≤ 100 then Int.lor display (shl 0b11111 24) else display
  display

/-- Lines 67-115.  `display` is the integer stored at `*display` on entry; the result is the
returned `int` and the integer stored at `*display` on exit, or `none` when a table read is
out of range. -/
def set_display_from_batt (batt : batt_t) (display : Int) : Option (Int × Int) := do
  let display : Int := 0
  let display ← set_digits batt display
  let display := set_bars batt display
  pure (0, display)

/-! ## `batt_update` (lines 119-136) -/

/-- Lines 129-135.  `battery` is the content of the uninitialised local `batt_t battery`;
the result is the returned `int` and the ports after the call. -/
def batt_update (g : Ports) (battery : batt_t) : Option (Int × Ports) :=
  match set_batt_from_ports g battery with
  | (ret, battery, g) =>
    if ret = 1 then
      some (1, g)
    else
      match set_display_from_batt battery g.BATT_DISPLAY_PORT with
      | some (_, display) => some (0, { g with BATT_DISPLAY_PORT := display })
      | none => none

/-! ## Reading a display word

The layout of `BATT_DISPLAY_PORT`: bits 0-2 indicator, 3-9 right digit, 10-16 middle digit,
17-23 left digit, 24-28 bars. -/

/-- The field of `width` bits of `w` that starts at bit `lo`. -/
def bits (w : Int) (lo width : Nat) : Int := (w / 2 ^ lo) % 2 ^ width

/-- The seven-segment pattern of a decimal digit, `0` for anything else. -/
def glyph (digit : Nat) : Int := bitmasks.getD digit 0

/-- The value that lines 110-114 place at bit 24.  The five tests exclude one another, so at
most one of the five assignments is executed. -/
def bar_field (percent : Int) : Int :=
  if percent ≥ 5 ∧ percent ≤ 29 then 0b00001
  else if percent ≥ 30 ∧ percent ≤ 49 then 0b00011
  else if percent ≥ 50 ∧ percent ≤ 69 then 0b00111
  else if percent ≥ 70 ∧ percent ≤ 89 then 0b01111
  else if percent ≥ 90 ∧ percent ≤ 100 then 0b11111
  else 0

/-- The standard seven-segment rendering of the decimal digits, as lists of lit segments
numbered `a = 0, b = 1, ..., g = 6`: 0 = abcdef, 1 = bc, 2 = abdeg, 3 = abcdg, 4 = bcfg,
5 = acdfg, 6 = acdefg, 7 = abc, 8 = abcdefg, 9 = abcdfg.  This is the reference rendering
the table `bitmasks` is compared with; it is not taken from the source. -/
def standard_segments : Nat → List Nat
  | 0 => [0, 1, 2, 3, 4, 5]
  | 1 => [1, 2]
  | 2 => [0, 1, 3, 4, 6]
  | 3 => [0, 1, 2, 3, 6]
  | 4 => [1, 2, 5, 6]
  | 5 => [0, 2, 3, 5, 6]
  | 6 => [0, 2, 3, 4, 5, 6]
  | 7 => [0, 1, 2]
  | 8 => [0, 1, 2, 3, 4, 5, 6]
  | 9 => [0, 1, 2, 3, 5, 6]
  | _ => []

/-- Lines 81-109: the four operands that the branch taken ORs into the word, in the order
indicator (shifted by 0), right pattern (by 3), middle pattern (by 10), left pattern (by 17).
A pattern is a read of `bitmasks`, or the constant `0b0000000` where the source writes it. -/
def digit_groups (batt : batt_t) : Option (Int × Int × Int × Int) :=
  let percentage := batt.percent
  let voltage := batt.mlvolts
  let right := right_rounded voltage
  if batt.mode = 2 then do
    let middle := volt_middle voltage
    let left := volt_left voltage
    pure (0b110, ← bitmasks_at right, ← bitmasks_at middle, ← bitmasks_at left)
  else if batt.percent = 100 ∧ batt.mode = 1 then do
    let right := Int.tmod percentage 10
    let middle := Int.tmod (Int.tdiv percentage 10) 10
    let left := Int.tmod (Int.tdiv (Int.tdiv percentage 10) 10) 10
    pure (0b001, ← bitmasks_at right, ← bitmasks_at middle, ← bitmasks_at left)
  else if batt.percent ≥ 10 ∧ batt.percent ≤ 99 ∧ batt.mode = 1 then do
    let right := Int.tmod percentage 10
    let middle := Int.tdiv percentage 10
    pure (0b001, ← bitmasks_at right, ← bitmasks_at middle, 0b0000000)
  else do
    let right := Int.tmod percentage 10
    pure (0b001, ← bitmasks_at right, 0b0000000, 0b0000000)

/-! ## Arithmetic of the C operators -/

theorem shr_one (x : Int) : shr x 1 = x / 2 := by
  unfold shr
  rw [← Int.shiftRight_eq, Int.shiftRight_eq_div_pow]
  norm_num

theorem shr_three (x : Int) : shr x 3 = x / 8 := by
  unfold shr
  rw [← Int.shiftRight_eq, Int.shiftRight_eq_div_pow]
  norm_num

theorem shl_one_four : shl 1 4 = 16 := by decide

theorem nat_land_16 (n : Nat) : n &&& 16 ≠ 0 ↔ n.testBit 4 = true := by
  constructor
  · intro h
    by_contra hb
    apply h
    apply Nat.eq_of_testBit_eq
    intro i
    have h16 : (16 : Nat) = 2 ^ 4 := by norm_num
    rw [Nat.testBit_and, h16, Nat.testBit_two_pow]
    by_cases hi : 4 = i
    · subst hi; simp at hb; simp [hb]
    · simp [hi]
  · intro hb h
    have := congrArg (fun m => Nat.testBit m 4) h
    simp [Nat.testBit_and, hb] at this
    revert this
    decide

theorem nat_ldiff_16 (n : Nat) : Nat.ldiff 16 n ≠ 0 ↔ n.testBit 4 = false := by
  constructor
  · intro h
    by_contra hb
    apply h
    apply Nat.eq_of_testBit_eq
    intro i
    have h16 : (16 : Nat) = 2 ^ 4 := by norm_num
    rw [Nat.testBit_ldiff, h16, Nat.testBit_two_pow]
    by_cases hi : 4 = i
    · subst hi; simp at hb; simp [hb]
    · simp [hi]
  · intro hb h
    have := congrArg (fun m => Nat.testBit m 4) h
    simp [Nat.testBit_ldiff, hb] at this
    revert this
    decide

theorem land_16_ne_zero_iff (s : Int) : Int.land s 16 ≠ 0 ↔ s.testBit 4 = true := by
  cases s with
  | ofNat n =>
    have h : Int.land (Int.ofNat n) 16 = ((n &&& 16 : Nat) : Int) := rfl
    rw [h]
    simp only [Int.testBit]
    rw [← nat_land_16]
    simp
  | negSucc n =>
    have h : Int.land (Int.negSucc n) 16 = ((Nat.ldiff 16 n : Nat) : Int) := rfl
    rw [h]
    simp only [Int.testBit]
    have := nat_ldiff_16 n
    simp at this ⊢
    exact this

/-! ## The battery reader -/

theorem clamp_eq (q : Int) :
    (if q > 100 then (100 : Int) else if q < 0 then 0 else q) = min 100 (max 0 q) := by
  split_ifs with h1 h2
  · rw [min_eq_left (le_max_of_le_right (le_of_lt h1))]
  · rw [max_eq_left (le_of_lt h2)]; simp
  · rw [max_eq_right (not_lt.mp h2), min_eq_right (not_lt.mp h1)]

/-- The reading that `set_batt_from_ports` leaves in `*batt` when the voltage port is not
negative. -/
theorem set_batt_from_ports_ok (g : Ports) (batt : batt_t) (h : 0 ≤ g.BATT_VOLTAGE_PORT) :
    set_batt_from_ports g batt =
      (0, { mlvolts := shr g.BATT_VOLTAGE_PORT 1,
            percent := min 100 (max 0 (shr (shr g.BATT_VOLTAGE_PORT 1 - 3000) 3)),
            mode := if g.BATT_STATUS_PORT.testBit 4 = true then 1 else 2 }, g) := by
  have hv : ¬ g.BATT_VOLTAGE_PORT < 0 := not_lt.mpr h
  have hm := land_16_ne_zero_iff g.BATT_STATUS_PORT
  rw [← clamp_eq]
  unfold set_batt_from_ports
  simp only [hv, if_false, shl_one_four, hm]
  split_ifs <;> rfl

/-- The call fails exactly on a negative voltage port. -/
theorem set_batt_from_ports_err (g : Ports) (batt : batt_t) (h : g.BATT_VOLTAGE_PORT < 0) :
    set_batt_from_ports g batt = (1, batt, g) := by
  unfold set_batt_from_ports
  simp only [h, if_true]

/-- C1: `set_batt_from_ports` returns 1 exactly when `BATT_VOLTAGE_PORT` is negative and 0
otherwise, whatever `BATT_STATUS_PORT` holds; when it returns 1 the record `*batt` keeps all
three fields, and in every case the ports are unchanged. -/
theorem C1_set_batt_from_ports_wiring_error (g : Ports) (batt : batt_t) :
    ((set_batt_from_ports g batt).1 = 1 ↔ g.BATT_VOLTAGE_PORT < 0) ∧
    ((set_batt_from_ports g batt).1 = 0 ↔ ¬ g.BATT_VOLTAGE_PORT < 0) ∧
    ((set_batt_from_ports g batt).1 = 1 →
      (set_batt_from_ports g batt).2.1.mlvolts = batt.mlvolts ∧
      (set_batt_from_ports g batt).2.1.percent = batt.percent ∧
      (set_batt_from_ports g batt).2.1.mode = batt.mode ∧
      (set_batt_from_ports g batt).2.2 = g) ∧
    (set_batt_from_ports g batt).2.2 = g := by
  by_cases h : g.BATT_VOLTAGE_PORT < 0
  · rw [set_batt_from_ports_err g batt h]
    simp [h]
  · rw [set_batt_from_ports_ok g batt (not_lt.mp h)]
    simp [h]

/-- C2: for a non-negative voltage port `v`, `mlvolts = v >> 1 = floor(v/2)` and
`percent = min(100, max(0, floor((mlvolts - 3000)/8)))`, the shift rounding toward minus
infinity; hence `0 ≤ percent ≤ 100`. -/
theorem C2_mlvolts_percent (g : Ports) (batt : batt_t) (h : 0 ≤ g.BATT_VOLTAGE_PORT) :
    (set_batt_from_ports g batt).2.1.mlvolts = shr g.BATT_VOLTAGE_PORT 1 ∧
    (set_batt_from_ports g batt).2.1.mlvolts = ⌊(g.BATT_VOLTAGE_PORT : ℚ) / 2⌋ ∧
    (set_batt_from_ports g batt).2.1.percent =
      min 100 (max 0 ⌊(((set_batt_from_ports g batt).2.1.mlvolts - 3000 : Int) : ℚ) / 8⌋) ∧
    0 ≤ (set_batt_from_ports g batt).2.1.percent ∧
    (set_batt_from_ports g batt).2.1.percent ≤ 100 := by
  have h2 : ∀ x : Int, ⌊(x : ℚ) / 2⌋ = x / 2 := fun x => by
    have := Rat.floor_intCast_div_natCast x 2
    simpa using this
  have h8 : ∀ x : Int, ⌊(x : ℚ) / 8⌋ = x / 8 := fun x => by
    have := Rat.floor_intCast_div_natCast x 8
    simpa using this
  rw [set_batt_from_ports_ok g batt h]
  simp only [h2, h8, shr_one, shr_three]
  refine ⟨trivial, trivial, trivial, ?_, ?_⟩
  · exact le_min (by norm_num) (le_max_left _ _)
  · exact min_le_left _ _

/-- Witness for C2 at `BATT_VOLTAGE_PORT = 6200`. -/
theorem C2_mlvolts_percent_witness :
    (0 : Int) ≤ (Ports.mk 6200 0 0).BATT_VOLTAGE_PORT ∧
    ((set_batt_from_ports ⟨6200, 0, 0⟩ ⟨0, 0, 0⟩).2.1.mlvolts = shr 6200 1 ∧
     (set_batt_from_ports ⟨6200, 0, 0⟩ ⟨0, 0, 0⟩).2.1.mlvolts = ⌊((6200 : Int) : ℚ) / 2⌋ ∧
     (set_batt_from_ports ⟨6200, 0, 0⟩ ⟨0, 0, 0⟩).2.1.percent =
       min 100 (max 0
         ⌊(((set_batt_from_ports ⟨6200, 0, 0⟩ ⟨0, 0, 0⟩).2.1.mlvolts - 3000 : Int) : ℚ) / 8⌋) ∧
     0 ≤ (set_batt_from_ports ⟨6200, 0, 0⟩ ⟨0, 0, 0⟩).2.1.percent ∧
     (set_batt_from_ports ⟨6200, 0, 0⟩ ⟨0, 0, 0⟩).2.1.percent ≤ 100) :=
  ⟨by decide, C2_mlvolts_percent ⟨6200, 0, 0⟩ ⟨0, 0, 0⟩ (by decide)⟩

/-- C3: the percent computed by `set_batt_from_ports` is non-decreasing in the voltage: for
non-negative port values `v1 ≤ v2` (any status ports, any prior records) the millivolt values
are ordered the same way and `percent(v1) ≤ percent(v2)`. -/
theorem C3_percent_monotone (g1 g2 : Ports) (batt1 batt2 : batt_t)
    (h1 : 0 ≤ g1.BATT_VOLTAGE_PORT) (h12 : g1.BATT_VOLTAGE_PORT ≤ g2.BATT_VOLTAGE_PORT) :
    (set_batt_from_ports g1 batt1).2.1.mlvolts ≤ (set_batt_from_ports g2 batt2).2.1.mlvolts ∧
    (set_batt_from_ports g1 batt1).2.1.percent ≤ (set_batt_from_ports g2 batt2).2.1.percent := by
  rw [set_batt_from_ports_ok g1 batt1 h1, set_batt_from_ports_ok g2 batt2 (le_trans h1 h12)]
  simp only [shr_one, shr_three]
  have hm : g1.BATT_VOLTAGE_PORT / 2 ≤ g2.BATT_VOLTAGE_PORT / 2 :=
    Int.ediv_le_ediv (by norm_num) h12
  have hq : (g1.BATT_VOLTAGE_PORT / 2 - 3000) / 8 ≤ (g2.BATT_VOLTAGE_PORT / 2 - 3000) / 8 :=
    Int.ediv_le_ediv (by norm_num) (sub_le_sub_right hm 3000)
  exact ⟨hm, min_le_min le_rfl (max_le_max le_rfl hq)⟩

/-- Witness for C3 at the ports 6200 and 7000. -/
theorem C3_percent_monotone_witness :
    (0 : Int) ≤ (Ports.mk 6200 0 0).BATT_VOLTAGE_PORT ∧
    (Ports.mk 6200 0 0).BATT_VOLTAGE_PORT ≤ (Ports.mk 7000 16 5).BATT_VOLTAGE_PORT ∧
    ((set_batt_from_ports ⟨6200, 0, 0⟩ ⟨0, 0, 0⟩).2.1.mlvolts ≤
       (set_batt_from_ports ⟨7000, 16, 5⟩ ⟨1, 2, 3⟩).2.1.mlvolts ∧
     (set_batt_from_ports ⟨6200, 0, 0⟩ ⟨0, 0, 0⟩).2.1.percent ≤
       (set_batt_from_ports ⟨7000, 16, 5⟩ ⟨1, 2, 3⟩).2.1.percent) :=
  ⟨by decide, by decide,
    C3_percent_monotone ⟨6200, 0, 0⟩ ⟨7000, 16, 5⟩ ⟨0, 0, 0⟩ ⟨1, 2, 3⟩ (by decide) (by decide)⟩

/-- C4: for a non-negative voltage port, `set_batt_from_ports` sets `mode = 1` (the value the
documentation of `set_display_from_batt` names Volts) when `BATT_STATUS_PORT & (1 << 4)` is
non-zero, i.e. bit 4 is set, and `mode = 2` when it is clear; two calls whose status ports
agree on bit 4 give the same mode, whatever the other bits, the voltages and the prior
records. -/
theorem C4_mode_from_status_bit4 (g : Ports) (batt : batt_t) (h : 0 ≤ g.BATT_VOLTAGE_PORT) :
    (Int.land g.BATT_STATUS_PORT (shl 1 4) ≠ 0 → (set_batt_from_ports g batt).2.1.mode = 1) ∧
    (Int.land g.BATT_STATUS_PORT (shl 1 4) = 0 → (set_batt_from_ports g batt).2.1.mode = 2) ∧
    (g.BATT_STATUS_PORT.testBit 4 = true → (set_batt_from_ports g batt).2.1.mode = 1) ∧
    (g.BATT_STATUS_PORT.testBit 4 = false → (set_batt_from_ports g batt).2.1.mode = 2) ∧
    (∀ (g2 : Ports) (batt2 : batt_t), 0 ≤ g2.BATT_VOLTAGE_PORT →
      g2.BATT_STATUS_PORT.testBit 4 = g.BATT_STATUS_PORT.testBit 4 →
      (set_batt_from_ports g2 batt2).2.1.mode = (set_batt_from_ports g batt).2.1.mode) := by
  have hm := land_16_ne_zero_iff g.BATT_STATUS_PORT
  rw [set_batt_from_ports_ok g batt h, shl_one_four]
  refine ⟨?_, ?_, ?_, ?_, ?_⟩
  · intro hl
    simp [hm.mp hl]
  · intro hl
    have hb : ¬ g.BATT_STATUS_PORT.testBit 4 = true := fun c => hm.mpr c hl
    simp [hb]
  · intro hb
    simp [hb]
  · intro hb
    simp [hb]
  · intro g2 batt2 h2 hbits
    rw [set_batt_from_ports_ok g2 batt2 h2]
    simp [hbits]

/-- Witness for C4 at the status ports `0b10110`, `0b01001` and `0b110000`. -/
theorem C4_mode_from_status_bit4_witness :
    (0 : Int) ≤ (Ports.mk 6200 0b10110 0).BATT_VOLTAGE_PORT ∧
    (set_batt_from_ports ⟨6200, 0b10110, 0⟩ ⟨0, 0, 0⟩).2.1.mode = 1 ∧
    (set_batt_from_ports ⟨7000, 0b01001, 0⟩ ⟨0, 0, 0⟩).2.1.mode = 2 ∧
    (set_batt_from_ports ⟨0, 0b110000, 9⟩ ⟨7, 7, 7⟩).2.1.mode =
      (set_batt_from_ports ⟨6200, 0b10110, 0⟩ ⟨0, 0, 0⟩).2.1.mode :=
  ⟨by decide,
    (C4_mode_from_status_bit4 ⟨6200, 0b10110, 0⟩ ⟨0, 0, 0⟩ (by decide)).1 (by decide),
    (C4_mode_from_status_bit4 ⟨7000, 0b01001, 0⟩ ⟨0, 0, 0⟩ (by decide)).2.1 (by decide),
    (C4_mode_from_status_bit4 ⟨6200, 0b10110, 0⟩ ⟨0, 0, 0⟩ (by decide)).2.2.2.2
      ⟨0, 0b110000, 9⟩ ⟨7, 7, 7⟩ (by decide) (by decide)⟩

/-! ## The display encoder and the update -/

/-- The word never depends on the integer found at `*display` (line 69 clears it). -/
theorem set_display_from_batt_prior (batt : batt_t) (d1 d2 : Int) :
    set_display_from_batt batt d1 = set_display_from_batt batt d2 := rfl

/-- On a negative voltage port nothing is written. -/
theorem batt_update_err (g : Ports) (battery : batt_t) (h : g.BATT_VOLTAGE_PORT < 0) :
    batt_update g battery = some (1, g) := by
  unfold batt_update
  rw [set_batt_from_ports_err g battery h]
  rfl

/-- On a non-negative voltage port the update is the encoder applied to the fresh reading;
it is undefined exactly when the encoder is. -/
theorem batt_update_ok (g : Ports) (battery : batt_t) (h : 0 ≤ g.BATT_VOLTAGE_PORT) :
    batt_update g battery =
      (set_display_from_batt (set_batt_from_ports g battery).2.1 0).map
        (fun r => (0, { g with BATT_DISPLAY_PORT := r.2 })) := by
  unfold batt_update
  rw [set_batt_from_ports_ok g battery h]
  simp only [zero_ne_one, if_false]
  rw [set_display_from_batt_prior _ g.BATT_DISPLAY_PORT 0]
  cases set_display_from_batt _ 0 <;> rfl

/-- The three digits of the `batt.mode == 2` branch always add up to the voltage rounded
half-up to 10 mV; the right one is `10` when the rounding carries. -/
theorem volt_digits_value (voltage : Int) (h : 0 ≤ voltage) :
    100 * volt_left voltage + 10 * volt_middle voltage + right_rounded voltage
      = (voltage + 5) / 10 := by
  have h10 : (0 : Int) ≤ 10 := by norm_num
  have d1 : Int.tdiv voltage 10 = voltage / 10 := Int.tdiv_eq_ediv h h10
  have n1 : 0 ≤ voltage / 10 := Int.ediv_nonneg h h10
  have d2 : Int.tdiv (voltage / 10) 10 = voltage / 10 / 10 := Int.tdiv_eq_ediv n1 h10
  have n2 : 0 ≤ voltage / 10 / 10 := Int.ediv_nonneg n1 h10
  have d3 : Int.tdiv (voltage / 10 / 10) 10 = voltage / 10 / 10 / 10 := Int.tdiv_eq_ediv n2 h10
  have m0 : Int.tmod voltage 10 = voltage % 10 := Int.tmod_eq_emod h h10
  have m1 : Int.tmod (voltage / 10) 10 = voltage / 10 % 10 := Int.tmod_eq_emod n1 h10
  have m2 : Int.tmod (voltage / 10 / 10) 10 = voltage / 10 / 10 % 10 := Int.tmod_eq_emod n2 h10
  unfold volt_left volt_middle right_rounded
  simp only [d1, d2, d3, m0, m1, m2]
  split_ifs <;> omega

/-- C5: evaluation of `set_display_from_batt` against its documentation ("Volts (mode=1) or
Percent (mode=2)").  The reading `mlvolts = 3100, percent = 12` with `mode = 1` yields the
percent indicator `0b001` and the digit groups blank, 1, 2 (the percent); with `mode = 2` it
yields the volts indicator `0b110` and the digit groups 3, 1, 0 (the voltage): the selection
is the reverse of the documented one. -/
theorem C5_mode_selection_reversed :
    (∀ d : Int, set_display_from_batt ⟨3100, 12, 1⟩ d = some (0, 16784089)) ∧
    bits 16784089 0 3 = 0b001 ∧
    bits 16784089 17 7 = 0 ∧ bits 16784089 10 7 = glyph 1 ∧ bits 16784089 3 7 = glyph 2 ∧
    (∀ d : Int, set_display_from_batt ⟨3100, 12, 2⟩ d = some (0, 27138558)) ∧
    bits 27138558 0 3 = 0b110 ∧
    bits 27138558 17 7 = glyph 3 ∧ bits 27138558 10 7 = glyph 1 ∧ bits 27138558 3 7 = glyph 0 :=
  ⟨fun _ => rfl, by decide, by decide, by decide, by decide,
   fun _ => rfl, by decide, by decide, by decide, by decide⟩

/-- C6: on a negative `BATT_VOLTAGE_PORT`, for every `BATT_STATUS_PORT` and every prior
`BATT_DISPLAY_PORT`, `batt_update` returns 1 and leaves every port, the display port
included, as it was. -/
theorem C6_update_error_keeps_display (g : Ports) (battery : batt_t)
    (h : g.BATT_VOLTAGE_PORT < 0) :
    batt_update g battery = some (1, g) ∧
    (∀ r, batt_update g battery = some r →
      r.1 = 1 ∧ r.2.BATT_DISPLAY_PORT = g.BATT_DISPLAY_PORT) := by
  rw [batt_update_err g battery h]
  refine ⟨rfl, ?_⟩
  intro r hr
  cases hr
  exact ⟨rfl, rfl⟩

/-- Witness for C6 at `BATT_VOLTAGE_PORT = -1` with the display port holding 12345. -/
theorem C6_update_error_keeps_display_witness :
    (Ports.mk (-1) 16 12345).BATT_VOLTAGE_PORT < 0 ∧
    (batt_update ⟨-1, 16, 12345⟩ ⟨0, 0, 0⟩ = some (1, ⟨-1, 16, 12345⟩) ∧
     (∀ r, batt_update ⟨-1, 16, 12345⟩ ⟨0, 0, 0⟩ = some r →
       r.1 = 1 ∧ r.2.BATT_DISPLAY_PORT = (Ports.mk (-1) 16 12345).BATT_DISPLAY_PORT)) :=
  ⟨by decide, C6_update_error_keeps_display ⟨-1, 16, 12345⟩ ⟨0, 0, 0⟩ (by decide)⟩

/-- C7: evaluation of `batt_update` at `BATT_VOLTAGE_PORT = 6190` with bit 4 of the status
port clear: the reader succeeds (returns 0) but the encoder reads `bitmasks[10]`, so the
update has no defined result, whatever the display port and the local record held before. -/
theorem C7_update_undefined_at_6190 :
    ∀ (d : Int) (battery : batt_t),
      (0 : Int) ≤ (Ports.mk 6190 0 d).BATT_VOLTAGE_PORT ∧
      (set_batt_from_ports ⟨6190, 0, d⟩ battery).1 = 0 ∧
      batt_update ⟨6190, 0, d⟩ battery = none :=
  fun _ _ => ⟨by norm_num, rfl, rfl⟩

/-- C8: evaluation of `batt_update` at `BATT_VOLTAGE_PORT = 6200` with bit 4 of the status
port clear.  The reading is `mlvolts = 3100, percent = 12, mode = 2`, and the word written
carries the volts indicator `0b110` and the digit groups 3, 1, 0 (3.10 V) with bar 1 lit,
not the percent indicator with blank, 1, 2. -/
theorem C8_update_6200_shows_voltage :
    ∀ (d : Int) (battery : batt_t),
      (set_batt_from_ports ⟨6200, 0, d⟩ battery).2.1 = ⟨3100, 12, 2⟩ ∧
      batt_update ⟨6200, 0, d⟩ battery = some (0, ⟨6200, 0, 27138558⟩) ∧
      bits 27138558 0 3 = 0b110 ∧ bits 27138558 0 3 ≠ 0b001 ∧
      bits 27138558 17 7 = glyph 3 ∧ bits 27138558 17 7 ≠ 0 ∧
      bits 27138558 10 7 = glyph 1 ∧
      bits 27138558 3 7 = glyph 0 ∧ bits 27138558 3 7 ≠ glyph 2 ∧
      bits 27138558 24 5 = 0b00001 :=
  fun _ _ => ⟨rfl, rfl, by decide, by decide, by decide, by decide, by decide, by decide,
    by decide, by decide⟩

/-- C9: evaluation of `set_display_from_batt` on readings that `set_batt_from_ports` produces
from non-negative ports.  Port 6190 gives `mlvolts = 3095, percent = 11, mode = 2`; there
`right = 10` and the read `bitmasks[right]` is past the ten-entry table.  Port 20000 gives
`mlvolts = 10000, percent = 100, mode = 2`; there `left = 10`.  In both cases no word is
defined. -/
theorem C9_encoder_index_out_of_range :
    ∀ (d : Int) (battery : batt_t),
      (set_batt_from_ports ⟨6190, 0, d⟩ battery).2.1 = ⟨3095, 11, 2⟩ ∧
      right_rounded 3095 = 10 ∧ bitmasks_at (right_rounded 3095) = none ∧
      set_display_from_batt ⟨3095, 11, 2⟩ d = none ∧
      (set_batt_from_ports ⟨20000, 0, d⟩ battery).2.1 = ⟨10000, 100, 2⟩ ∧
      volt_left 10000 = 10 ∧ bitmasks_at (volt_left 10000) = none ∧
      set_display_from_batt ⟨10000, 100, 2⟩ d = none :=
  fun _ _ => ⟨rfl, by decide, by decide, rfl, rfl, by decide, by decide, rfl⟩

/-- C10: evaluation of the voltage digits.  At `mlvolts = 3087` they are 3, 0, 9.  At
`mlvolts = 3095` and at `mlvolts = 95`, both inside `[0, 9994]`, the rounding gives
`right = 10`, which is not a decimal digit, and the encoder has no defined word; the carry
into the middle digit is missing. -/
theorem C10_rounded_digit_reaches_ten :
    (volt_left 3087 = 3 ∧ volt_middle 3087 = 0 ∧ right_rounded 3087 = 9) ∧
    (volt_left 3095 = 3 ∧ volt_middle 3095 = 0 ∧ right_rounded 3095 = 10) ∧
    (volt_left 95 = 0 ∧ volt_middle 95 = 0 ∧ right_rounded 95 = 10) ∧
    ¬ right_rounded 3095 ≤ 9 ∧
    (∀ (percent d : Int), set_display_from_batt ⟨3095, percent, 2⟩ d = none) ∧
    (∀ (percent d : Int), set_display_from_batt ⟨95, percent, 2⟩ d = none) :=
  ⟨by decide, by decide, by decide, by decide, fun _ _ => rfl, fun _ _ => rfl⟩

/-! ## Bitwise or of disjoint fields -/

/-- An `|` whose right operand is shifted past every bit of the left one is a sum. -/
theorem lor_shl_disjoint (x b : Int) (k : Nat) (hx0 : 0 ≤ x) (hx : x < 2 ^ k) (hb : 0 ≤ b) :
    Int.lor x (shl b k) = x + b * 2 ^ k := by
  obtain ⟨n, rfl⟩ := Int.eq_ofNat_of_zero_le hx0
  obtain ⟨m, rfl⟩ := Int.eq_ofNat_of_zero_le hb
  have hn : n < 2 ^ k := by exact_mod_cast hx
  have e : shl (m : Int) k = ((m * 2 ^ k : Nat) : Int) := by
    unfold shl; push_cast; rfl
  rw [e]
  have h : Int.lor (n : Int) ((m * 2 ^ k : Nat) : Int) = ((n ||| m * 2 ^ k : Nat) : Int) := rfl
  rw [h, Nat.lor_comm, Nat.mul_comm m, ← Nat.mul_add_lt_is_or hn m]
  push_cast
  ring

/-- The table read succeeds exactly on `0..9`, with a non-zero pattern of seven bits. -/
theorem bitmasks_at_some (i g : Int) (h : bitmasks_at i = some g) :
    0 ≤ i ∧ i ≤ 9 ∧ g = glyph i.toNat ∧ 0 < g ∧ g < 128 := by
  unfold bitmasks_at at h
  by_cases h0 : 0 ≤ i
  · simp only [h0, if_true] at h
    by_cases h9 : i ≤ 9
    · interval_cases i <;> simp [bitmasks] at h <;> subst h <;> decide
    · exfalso
      have : 10 ≤ i.toNat := by omega
      have hlen : bitmasks.length ≤ i.toNat := by simpa [bitmasks] using this
      rw [List.get?_eq_none.mpr hlen] at h
      cases h
  · simp [h0] at h

theorem bitmasks_at_of_range (i : Int) (h0 : 0 ≤ i) (h9 : i ≤ 9) :
    bitmasks_at i = some (glyph i.toNat) := by
  interval_cases i <;> rfl

theorem bitmasks_at_isSome (i : Int) : (bitmasks_at i).isSome = true ↔ 0 ≤ i ∧ i ≤ 9 := by
  constructor
  · intro h
    obtain ⟨g, hg⟩ := Option.isSome_iff_exists.mp h
    have := bitmasks_at_some i g hg
    exact ⟨this.1, this.2.1⟩
  · rintro ⟨h0, h9⟩
    rw [bitmasks_at_of_range i h0 h9]
    rfl

theorem glyph_bounds (n : Nat) : 0 ≤ glyph n ∧ glyph n < 128 := by
  by_cases h : n < 10
  · interval_cases n <;> decide
  · have hlen : bitmasks.length ≤ n := by simp [bitmasks]; omega
    unfold glyph
    rw [List.getD_eq_default _ _ hlen]
    decide

/-- The four groups OR-ed by lines 84-87 (and 92-95, 99-102, 105-108) do not overlap. -/
theorem lor_pack (ind r m l : Int) (hi0 : 0 ≤ ind) (hi : ind < 8) (hr0 : 0 ≤ r) (hr : r < 128)
    (hm0 : 0 ≤ m) (hm : m < 128) (hl0 : 0 ≤ l) :
    Int.lor (Int.lor (Int.lor (Int.lor 0 (shl ind 0)) (shl r 3)) (shl m 10)) (shl l 17)
      = ind + r * 2 ^ 3 + m * 2 ^ 10 + l * 2 ^ 17 := by
  rw [lor_shl_disjoint 0 ind 0 le_rfl (by norm_num) hi0]
  rw [lor_shl_disjoint _ r 3 (by omega) (by norm_num; omega) hr0]
  rw [lor_shl_disjoint _ m 10 (by omega) (by norm_num; omega) hm0]
  rw [lor_shl_disjoint _ l 17 (by omega) (by norm_num; omega) hl0]
  ring

/-- Lines 110-114 add the bar field above the 24 bits of the digit part. -/
theorem set_bars_eq (batt : batt_t) (x : Int) (hx0 : 0 ≤ x) (hx : x < 2 ^ 24) :
    set_bars batt x = x + bar_field batt.percent * 2 ^ 24 := by
  have e1 := lor_shl_disjoint x 0b00001 24 hx0 hx (by norm_num)
  have e2 := lor_shl_disjoint x 0b00011 24 hx0 hx (by norm_num)
  have e3 := lor_shl_disjoint x 0b00111 24 hx0 hx (by norm_num)
  have e4 := lor_shl_disjoint x 0b01111 24 hx0 hx (by norm_num)
  have e5 := lor_shl_disjoint x 0b11111 24 hx0 hx (by norm_num)
  unfold set_bars bar_field
  generalize batt.percent = p
  by_cases c1 : p ≥ 5 ∧ p ≤ 29
  · have c2 : ¬ (p ≥ 30 ∧ p ≤ 49) := by omega
    have c3 : ¬ (p ≥ 50 ∧ p ≤ 69) := by omega
    have c4 : ¬ (p ≥ 70 ∧ p ≤ 89) := by omega
    have c5 : ¬ (p ≥ 90 ∧ p ≤ 100) := by omega
    simp only [c1, c2, c3, c4, c5, and_self, if_true, if_false, e1]
  · by_cases c2 : p ≥ 30 ∧ p ≤ 49
    · have c3 : ¬ (p ≥ 50 ∧ p ≤ 69) := by omega
      have c4 : ¬ (p ≥ 70 ∧ p ≤ 89) := by omega
      have c5 : ¬ (p ≥ 90 ∧ p ≤ 100) := by omega
      simp only [c1, c2, c3, c4, c5, and_self, if_true, if_false, e2]
    · by_cases c3 : p ≥ 50 ∧ p ≤ 69
      · have c4 : ¬ (p ≥ 70 ∧ p ≤ 89) := by omega
        have c5 : ¬ (p ≥ 90 ∧ p ≤ 100) := by omega
        simp only [c1, c2, c3, c4, c5, and_self, if_true, if_false, e3]
      · by_cases c4 : p ≥ 70 ∧ p ≤ 89
        · have c5 : ¬ (p ≥ 90 ∧ p ≤ 100) := by omega
          simp only [c1, c2, c3, c4, c5, and_self, if_true, if_false, e4]
        · by_cases c5 : p ≥ 90 ∧ p ≤ 100
          · simp only [c1, c2, c3, c4, c5, and_self, if_true, if_false, e5]
          · simp only [c1, c2, c3, c4, c5, if_false]
            ring

theorem bar_field_values (p : Int) :
    bar_field p = 0 ∨ bar_field p = 1 ∨ bar_field p = 3 ∨ bar_field p = 7 ∨
    bar_field p = 15 ∨ bar_field p = 31 := by
  unfold bar_field
  split_ifs <;> simp

/-- The voltage branch (lines 81-87). -/
theorem set_digits_volt (batt : batt_t) (hmode : batt.mode = 2) :
    set_digits batt 0 =
      match bitmasks_at (right_rounded batt.mlvolts), bitmasks_at (volt_middle batt.mlvolts),
          bitmasks_at (volt_left batt.mlvolts) with
      | some r, some m, some l => some (6 + r * 2 ^ 3 + m * 2 ^ 10 + l * 2 ^ 17)
      | _, _, _ => none := by
  unfold set_digits
  simp only [hmode, if_true]
  cases hr : bitmasks_at (right_rounded batt.mlvolts) with
  | none => rfl
  | some r =>
    cases hm : bitmasks_at (volt_middle batt.mlvolts) with
    | none => rfl
    | some m =>
      cases hl : bitmasks_at (volt_left batt.mlvolts) with
      | none => rfl
      | some l =>
        have br := bitmasks_at_some _ _ hr
        have bm := bitmasks_at_some _ _ hm
        have bl := bitmasks_at_some _ _ hl
        have := lor_pack 6 r m l (by norm_num) (by norm_num) (by omega) (by omega) (by omega)
          (by omega) (by omega)
        simp only [Option.bind_eq_bind, Option.some_bind, Option.pure_def, Pure.pure]
        rw [this]

/-- The three percent branches (lines 88-109), taken whenever `batt.mode` is not 2. -/
theorem set_digits_pct (batt : batt_t) (hmode : batt.mode ≠ 2) :
    set_digits batt 0 =
      if batt.percent = 100 ∧ batt.mode = 1 then
        match bitmasks_at (Int.tmod batt.percent 10),
            bitmasks_at (Int.tmod (Int.tdiv batt.percent 10) 10),
            bitmasks_at (Int.tmod (Int.tdiv (Int.tdiv batt.percent 10) 10) 10) with
        | some r, some m, some l => some (1 + r * 2 ^ 3 + m * 2 ^ 10 + l * 2 ^ 17)
        | _, _, _ => none
      else if batt.percent ≥ 10 ∧ batt.percent ≤ 99 ∧ batt.mode = 1 then
        match bitmasks_at (Int.tmod batt.percent 10), bitmasks_at (Int.tdiv batt.percent 10) with
        | some r, some m => some (1 + r * 2 ^ 3 + m * 2 ^ 10 + 0 * 2 ^ 17)
        | _, _ => none
      else
        match bitmasks_at (Int.tmod batt.percent 10) with
        | some r => some (1 + r * 2 ^ 3 + 0 * 2 ^ 10 + 0 * 2 ^ 17)
        | none => none := by
  unfold set_digits
  simp only [hmode, if_false]
  split_ifs with h1 h2
  · cases hr : bitmasks_at (Int.tmod batt.percent 10) with
    | none => rfl
    | some r =>
      cases hm : bitmasks_at (Int.tmod (Int.tdiv batt.percent 10) 10) with
      | none => rfl
      | some m =>
        cases hl : bitmasks_at (Int.tmod (Int.tdiv (Int.tdiv batt.percent 10) 10) 10) with
        | none => rfl
        | some l =>
          have br := bitmasks_at_some _ _ hr
          have bm := bitmasks_at_some _ _ hm
          have bl := bitmasks_at_some _ _ hl
          have := lor_pack 1 r m l (by norm_num) (by norm_num) (by omega) (by omega) (by omega)
            (by omega) (by omega)
          simp only [Option.bind_eq_bind, Option.some_bind, Option.pure_def, Pure.pure]
          rw [this]
  · cases hr : bitmasks_at (Int.tmod batt.percent 10) with
    | none => rfl
    | some r =>
      cases hm : bitmasks_at (Int.tdiv batt.percent 10) with
      | none => rfl
      | some m =>
        have br := bitmasks_at_some _ _ hr
        have bm := bitmasks_at_some _ _ hm
        have := lor_pack 1 r m 0 (by norm_num) (by norm_num) (by omega) (by omega) (by omega)
          (by omega) le_rfl
        simp only [Option.bind_eq_bind, Option.some_bind, Option.pure_def, Pure.pure]
        rw [this]
  · cases hr : bitmasks_at (Int.tmod batt.percent 10) with
    | none => rfl
    | some r =>
      have br := bitmasks_at_some _ _ hr
      have := lor_pack 1 r 0 0 (by norm_num) (by norm_num) (by omega) (by omega) le_rfl
        (by norm_num) le_rfl
      simp only [Option.bind_eq_bind, Option.some_bind, Option.pure_def, Pure.pure]
      rw [this]

/-- The fields of a packed word are recovered by dividing and reducing. -/
theorem bits_of_packed (ind rt md lf br : Int) (hi0 : 0 ≤ ind) (hi : ind < 8)
    (hr0 : 0 ≤ rt) (hr : rt < 128) (hm0 : 0 ≤ md) (hm : md < 128) (hl0 : 0 ≤ lf) (hl : lf < 128)
    (hb0 : 0 ≤ br) (hb : br < 32) :
    bits (ind + rt * 2 ^ 3 + md * 2 ^ 10 + lf * 2 ^ 17 + br * 2 ^ 24) 0 3 = ind ∧
    bits (ind + rt * 2 ^ 3 + md * 2 ^ 10 + lf * 2 ^ 17 + br * 2 ^ 24) 3 7 = rt ∧
    bits (ind + rt * 2 ^ 3 + md * 2 ^ 10 + lf * 2 ^ 17 + br * 2 ^ 24) 10 7 = md ∧
    bits (ind + rt * 2 ^ 3 + md * 2 ^ 10 + lf * 2 ^ 17 + br * 2 ^ 24) 17 7 = lf ∧
    bits (ind + rt * 2 ^ 3 + md * 2 ^ 10 + lf * 2 ^ 17 + br * 2 ^ 24) 24 5 = br ∧
    0 ≤ ind + rt * 2 ^ 3 + md * 2 ^ 10 + lf * 2 ^ 17 + br * 2 ^ 24 ∧
    ind + rt * 2 ^ 3 + md * 2 ^ 10 + lf * 2 ^ 17 + br * 2 ^ 24 < 2 ^ 29 := by
  unfold bits
  norm_num
  refine ⟨?_, ?_, ?_, ?_, ?_, ?_, ?_⟩ <;> omega

/-- The encoder is the digit part followed by the bar part, started from the cleared word. -/
theorem set_display_from_batt_eq (batt : batt_t) (d : Int) :
    set_display_from_batt batt d =
      match set_digits batt 0 with
      | some x => some (0, set_bars batt x)
      | none => none := by
  cases h : set_digits batt 0 <;> simp [set_display_from_batt, h]

/-- Every word the encoder produces is a sum of five non-overlapping groups, and the status
returned with it is 0. -/
theorem set_display_from_batt_packed (batt : batt_t) (d r w : Int)
    (h : set_display_from_batt batt d = some (r, w)) :
    r = 0 ∧ ∃ ind rt md lf : Int, (ind = 6 ∨ ind = 1) ∧ (0 ≤ rt ∧ rt < 128) ∧
      (0 ≤ md ∧ md < 128) ∧ (0 ≤ lf ∧ lf < 128) ∧
      set_digits batt 0 = some (ind + rt * 2 ^ 3 + md * 2 ^ 10 + lf * 2 ^ 17) ∧
      w = ind + rt * 2 ^ 3 + md * 2 ^ 10 + lf * 2 ^ 17 + bar_field batt.percent * 2 ^ 24 := by
  rw [set_display_from_batt_eq] at h
  cases hx : set_digits batt 0 with
  | none =>
    rw [hx] at h
    cases h
  | some x =>
    rw [hx] at h
    simp only [Option.some.injEq, Prod.mk.injEq] at h
    obtain ⟨h0, hw⟩ := h
    refine ⟨h0.symm, ?_⟩
    have key : ∃ ind rt md lf : Int, (ind = 6 ∨ ind = 1) ∧ (0 ≤ rt ∧ rt < 128) ∧
        (0 ≤ md ∧ md < 128) ∧ (0 ≤ lf ∧ lf < 128) ∧
        x = ind + rt * 2 ^ 3 + md * 2 ^ 10 + lf * 2 ^ 17 := by
      by_cases hmode : batt.mode = 2
      · rw [set_digits_volt batt hmode] at hx
        cases hr : bitmasks_at (right_rounded batt.mlvolts) with
        | none => simp [hr] at hx
        | some r =>
          cases hm : bitmasks_at (volt_middle batt.mlvolts) with
          | none => simp [hr, hm] at hx
          | some m =>
            cases hl : bitmasks_at (volt_left batt.mlvolts) with
            | none => simp [hr, hm, hl] at hx
            | some l =>
              have br := bitmasks_at_some _ _ hr
              have bm := bitmasks_at_some _ _ hm
              have bl := bitmasks_at_some _ _ hl
              simp only [hr, hm, hl, Option.some.injEq] at hx
              exact ⟨6, r, m, l, Or.inl rfl, ⟨by omega, by omega⟩, ⟨by omega, by omega⟩,
                ⟨by omega, by omega⟩, hx.symm⟩
      · rw [set_digits_pct batt hmode] at hx
        split_ifs at hx with h1 h2
        · cases hr : bitmasks_at (Int.tmod batt.percent 10) with
          | none => simp [hr] at hx
          | some r =>
            cases hm : bitmasks_at (Int.tmod (Int.tdiv batt.percent 10) 10) with
            | none => simp [hr, hm] at hx
            | some m =>
              cases hl : bitmasks_at (Int.tmod (Int.tdiv (Int.tdiv batt.percent 10) 10) 10) with
              | none => simp [hr, hm, hl] at hx
              | some l =>
                have br := bitmasks_at_some _ _ hr
                have bm := bitmasks_at_some _ _ hm
                have bl := bitmasks_at_some _ _ hl
                simp only [hr, hm, hl, Option.some.injEq] at hx
                exact ⟨1, r, m, l, Or.inr rfl, ⟨by omega, by omega⟩, ⟨by omega, by omega⟩,
                  ⟨by omega, by omega⟩, hx.symm⟩
        · cases hr : bitmasks_at (Int.tmod batt.percent 10) with
          | none => simp [hr] at hx
          | some r =>
            cases hm : bitmasks_at (Int.tdiv batt.percent 10) with
            | none => simp [hr, hm] at hx
            | some m =>
              have br := bitmasks_at_some _ _ hr
              have bm := bitmasks_at_some _ _ hm
              simp only [hr, hm, Option.some.injEq] at hx
              exact ⟨1, r, m, 0, Or.inr rfl, ⟨by omega, by omega⟩, ⟨by omega, by omega⟩,
                ⟨le_rfl, by norm_num⟩, hx.symm⟩
        · cases hr : bitmasks_at (Int.tmod batt.percent 10) with
          | none => simp [hr] at hx
          | some r =>
            have br := bitmasks_at_some _ _ hr
            simp only [hr, Option.some.injEq] at hx
            exact ⟨1, r, 0, 0, Or.inr rfl, ⟨by omega, by omega⟩, ⟨le_rfl, by norm_num⟩,
              ⟨le_rfl, by norm_num⟩, hx.symm⟩
    obtain ⟨ind, rt, md, lf, hind, hrt, hmd, hlf, hxe⟩ := key
    refine ⟨ind, rt, md, lf, hind, hrt, hmd, hlf, by rw [hxe], ?_⟩
    have hx24 : x < 2 ^ 24 := by
      rw [hxe]; norm_num; rcases hind with rfl | rfl <;> omega
    have hx0 : 0 ≤ x := by
      rw [hxe]; norm_num; rcases hind with rfl | rfl <;> omega
    rw [← hw, set_bars_eq batt x hx0 hx24, hxe]

/-! ## The percent display (`batt.mode == 1`) -/

/-- With `batt.mode == 1` the field `mlvolts` and the prior word are never consulted. -/
theorem set_display_percent_indep (m1 m2 p d1 d2 : Int) :
    set_display_from_batt ⟨m1, p, 1⟩ d1 = set_display_from_batt ⟨m2, p, 1⟩ d2 := rfl

/-- The word of the percent display, for every `percent` in `[0, 100]`. -/
theorem set_display_percent (mlvolts p d : Int) (h0 : 0 ≤ p) (h100 : p ≤ 100) :
    set_display_from_batt ⟨mlvolts, p, 1⟩ d =
      some (0, 1 + glyph (p % 10).toNat * 2 ^ 3
        + (if p < 10 then 0 else glyph (p / 10 % 10).toNat) * 2 ^ 10
        + (if p = 100 then glyph 1 else 0) * 2 ^ 17 + bar_field p * 2 ^ 24) := by
  rw [set_display_percent_indep mlvolts 0 p d 0]
  interval_cases p <;> rfl

theorem bar_field_bounds (p : Int) : 0 ≤ bar_field p ∧ bar_field p < 32 := by
  rcases bar_field_values p with h | h | h | h | h | h <;> rw [h] <;> norm_num

/-- C11: percent display (`batt.mode == 1`, `percent` in `[0, 100]`, any `mlvolts`): a word is
produced, bits 0-2 hold `0b001`, and the digit groups are: below 10, right = glyph of
`percent`, middle and left zero; from 10 to 99, right = glyph of `percent mod 10`, middle =
glyph of `percent div 10`, left zero; at 100, left, middle, right = glyphs of 1, 0, 0. -/
theorem C11_percent_digit_blanking (mlvolts percent d : Int)
    (h0 : 0 ≤ percent) (h100 : percent ≤ 100) :
    ∃ w, set_display_from_batt ⟨mlvolts, percent, 1⟩ d = some (0, w) ∧
      bits w 0 3 = 0b001 ∧
      (percent < 10 →
        bits w 3 7 = glyph percent.toNat ∧ bits w 10 7 = 0 ∧ bits w 17 7 = 0) ∧
      (10 ≤ percent → percent ≤ 99 →
        bits w 3 7 = glyph (percent % 10).toNat ∧ bits w 10 7 = glyph (percent / 10).toNat ∧
        bits w 17 7 = 0) ∧
      (percent = 100 →
        bits w 17 7 = glyph 1 ∧ bits w 10 7 = glyph 0 ∧ bits w 3 7 = glyph 0) := by
  refine ⟨_, set_display_percent mlvolts percent d h0 h100, ?_⟩
  have g1 := glyph_bounds (percent % 10).toNat
  have g2 : 0 ≤ (if percent < 10 then 0 else glyph (percent / 10 % 10).toNat) ∧
      (if percent < 10 then 0 else glyph (percent / 10 % 10).toNat) < 128 := by
    split_ifs
    · norm_num
    · exact glyph_bounds _
  have g3 : 0 ≤ (if percent = 100 then glyph 1 else 0) ∧
      (if percent = 100 then glyph 1 else 0) < 128 := by
    split_ifs
    · exact glyph_bounds _
    · norm_num
  have gb := bar_field_bounds percent
  obtain ⟨b0, b3, b10, b17, -, -, -⟩ := bits_of_packed 1 _ _ _ _ (by norm_num) (by norm_num)
    g1.1 g1.2 g2.1 g2.2 g3.1 g3.2 gb.1 gb.2
  rw [b0, b3, b10, b17]
  refine ⟨rfl, ?_, ?_, ?_⟩
  · intro h
    have e : percent % 10 = percent := by omega
    have n100 : percent ≠ 100 := by omega
    rw [e, if_pos h, if_neg n100]
    exact ⟨rfl, rfl, rfl⟩
  · intro h10 h99
    have e : percent / 10 % 10 = percent / 10 := by omega
    have n10 : ¬ percent < 10 := by omega
    have n100 : percent ≠ 100 := by omega
    rw [e, if_neg n10, if_neg n100]
    exact ⟨rfl, rfl, rfl⟩
  · intro h
    subst h
    exact ⟨rfl, rfl, rfl⟩

/-- Witness for C11 at `percent` = 7, 42 and 100. -/
theorem C11_percent_digit_blanking_witness :
    ((0 : Int) ≤ 7 ∧ (7 : Int) ≤ 100 ∧
      ∃ w, set_display_from_batt ⟨3100, 7, 1⟩ 0 = some (0, w) ∧
        bits w 0 3 = 0b001 ∧
        ((7 : Int) < 10 →
          bits w 3 7 = glyph (7 : Int).toNat ∧ bits w 10 7 = 0 ∧ bits w 17 7 = 0) ∧
        ((10 : Int) ≤ 7 → (7 : Int) ≤ 99 →
          bits w 3 7 = glyph ((7 : Int) % 10).toNat ∧
          bits w 10 7 = glyph ((7 : Int) / 10).toNat ∧ bits w 17 7 = 0) ∧
        ((7 : Int) = 100 →
          bits w 17 7 = glyph 1 ∧ bits w 10 7 = glyph 0 ∧ bits w 3 7 = glyph 0)) ∧
    ((0 : Int) ≤ 42 ∧ (42 : Int) ≤ 100 ∧
      ∃ w, set_display_from_batt ⟨3100, 42, 1⟩ 0 = some (0, w) ∧
        bits w 0 3 = 0b001 ∧
        ((42 : Int) < 10 →
          bits w 3 7 = glyph (42 : Int).toNat ∧ bits w 10 7 = 0 ∧ bits w 17 7 = 0) ∧
        ((10 : Int) ≤ 42 → (42 : Int) ≤ 99 →
          bits w 3 7 = glyph ((42 : Int) % 10).toNat ∧
          bits w 10 7 = glyph ((42 : Int) / 10).toNat ∧ bits w 17 7 = 0) ∧
        ((42 : Int) = 100 →
          bits w 17 7 = glyph 1 ∧ bits w 10 7 = glyph 0 ∧ bits w 3 7 = glyph 0)) ∧
    ((0 : Int) ≤ 100 ∧ (100 : Int) ≤ 100 ∧
      ∃ w, set_display_from_batt ⟨3100, 100, 1⟩ 0 = some (0, w) ∧
        bits w 0 3 = 0b001 ∧
        ((100 : Int) < 10 →
          bits w 3 7 = glyph (100 : Int).toNat ∧ bits w 10 7 = 0 ∧ bits w 17 7 = 0) ∧
        ((10 : Int) ≤ 100 → (100 : Int) ≤ 99 →
          bits w 3 7 = glyph ((100 : Int) % 10).toNat ∧
          bits w 10 7 = glyph ((100 : Int) / 10).toNat ∧ bits w 17 7 = 0) ∧
        ((100 : Int) = 100 →
          bits w 17 7 = glyph 1 ∧ bits w 10 7 = glyph 0 ∧ bits w 3 7 = glyph 0)) :=
  ⟨⟨by decide, by decide, C11_percent_digit_blanking 3100 7 0 (by decide) (by decide)⟩,
   ⟨by decide, by decide, C11_percent_digit_blanking 3100 42 0 (by decide) (by decide)⟩,
   ⟨by decide, by decide, C11_percent_digit_blanking 3100 100 0 (by decide) (by decide)⟩⟩

/-! ## The voltage display (`batt.mode == 2`) -/

/-- On a non-negative voltage the truncating `/` and `%` of lines 72-83 are the usual ones. -/
theorem volt_digits_nonneg (v : Int) (h : 0 ≤ v) :
    right_rounded v = v / 10 % 10 + (if v % 10 ≥ 5 then 1 else 0) ∧
    volt_middle v = v / 100 % 10 ∧ volt_left v = v / 1000 := by
  have h10 : (0 : Int) ≤ 10 := by norm_num
  have d1 : Int.tdiv v 10 = v / 10 := Int.tdiv_eq_ediv h h10
  have n1 : 0 ≤ v / 10 := Int.ediv_nonneg h h10
  have d2 : Int.tdiv (v / 10) 10 = v / 10 / 10 := Int.tdiv_eq_ediv n1 h10
  have n2 : 0 ≤ v / 10 / 10 := Int.ediv_nonneg n1 h10
  have d3 : Int.tdiv (v / 10 / 10) 10 = v / 10 / 10 / 10 := Int.tdiv_eq_ediv n2 h10
  have m0 : Int.tmod v 10 = v % 10 := Int.tmod_eq_emod h h10
  have m1 : Int.tmod (v / 10) 10 = v / 10 % 10 := Int.tmod_eq_emod n1 h10
  have m2 : Int.tmod (v / 10 / 10) 10 = v / 10 / 10 % 10 := Int.tmod_eq_emod n2 h10
  unfold volt_left volt_middle right_rounded
  simp only [d1, d2, d3, m0, m1, m2]
  refine ⟨?_, ?_, ?_⟩
  · split_ifs <;> omega
  · omega
  · omega

/-- The three table indices of the voltage branch are in `0..9` exactly when the voltage is
below 10 V and its last two digits are below 95. -/
theorem volt_indices_in_range (v : Int) (h : 0 ≤ v) :
    ((0 ≤ right_rounded v ∧ right_rounded v ≤ 9) ∧ (0 ≤ volt_middle v ∧ volt_middle v ≤ 9) ∧
      (0 ≤ volt_left v ∧ volt_left v ≤ 9)) ↔ (v < 10000 ∧ v % 100 < 95) := by
  obtain ⟨e1, e2, e3⟩ := volt_digits_nonneg v h
  rw [e1, e2, e3]
  constructor
  · rintro ⟨⟨-, hr⟩, -, -, hl⟩
    split_ifs at hr <;> omega
  · rintro ⟨h1, h2⟩
    split_ifs <;> omega

/-- The word of the voltage display when the three indices are in range. -/
theorem set_display_volt (v p d : Int)
    (hr : 0 ≤ right_rounded v ∧ right_rounded v ≤ 9)
    (hm : 0 ≤ volt_middle v ∧ volt_middle v ≤ 9)
    (hl : 0 ≤ volt_left v ∧ volt_left v ≤ 9) :
    set_display_from_batt ⟨v, p, 2⟩ d =
      some (0, 6 + glyph (right_rounded v).toNat * 2 ^ 3 + glyph (volt_middle v).toNat * 2 ^ 10
        + glyph (volt_left v).toNat * 2 ^ 17 + bar_field p * 2 ^ 24) := by
  have g1 := glyph_bounds (right_rounded v).toNat
  have g2 := glyph_bounds (volt_middle v).toNat
  have g3 := glyph_bounds (volt_left v).toNat
  rw [set_display_from_batt_eq, set_digits_volt _ rfl]
  simp only [bitmasks_at_of_range _ hr.1 hr.2, bitmasks_at_of_range _ hm.1 hm.2,
    bitmasks_at_of_range _ hl.1 hl.2]
  rw [set_bars_eq _ _ (by norm_num; omega) (by norm_num; omega)]

/-- The voltage display is defined exactly when the three reads are. -/
theorem set_display_volt_isSome (v p d : Int) :
    (set_display_from_batt ⟨v, p, 2⟩ d).isSome = true ↔
      ((0 ≤ right_rounded v ∧ right_rounded v ≤ 9) ∧ (0 ≤ volt_middle v ∧ volt_middle v ≤ 9) ∧
        (0 ≤ volt_left v ∧ volt_left v ≤ 9)) := by
  constructor
  · intro h
    rw [set_display_from_batt_eq, set_digits_volt _ rfl] at h
    simp only [] at h
    cases hr : bitmasks_at (right_rounded v) with
    | none => simp [hr] at h
    | some r =>
      cases hm : bitmasks_at (volt_middle v) with
      | none => simp [hr, hm] at h
      | some m =>
        cases hl : bitmasks_at (volt_left v) with
        | none => simp [hr, hm, hl] at h
        | some l =>
          have br := bitmasks_at_some _ _ hr
          have bm := bitmasks_at_some _ _ hm
          have bl := bitmasks_at_some _ _ hl
          exact ⟨⟨br.1, br.2.1⟩, ⟨bm.1, bm.2.1⟩, ⟨bl.1, bl.2.1⟩⟩
  · rintro ⟨hr, hm, hl⟩
    rw [set_display_volt v p d hr hm hl]
    rfl

/-- C18: with `batt.mode == 2` and `mlvolts ≥ 0`, the three table reads of
`set_display_from_batt` all use an index in `0..9` if and only if `mlvolts < 10000` and
`mlvolts mod 100 < 95`; the same condition is exactly when a word is produced.  Otherwise
`right = 10` or `left ≥ 10`. -/
theorem C18_voltage_branch_domain (mlvolts percent d : Int) (h : 0 ≤ mlvolts) :
    (((0 ≤ right_rounded mlvolts ∧ right_rounded mlvolts ≤ 9) ∧
      (0 ≤ volt_middle mlvolts ∧ volt_middle mlvolts ≤ 9) ∧
      (0 ≤ volt_left mlvolts ∧ volt_left mlvolts ≤ 9)) ↔
        (mlvolts < 10000 ∧ mlvolts % 100 < 95)) ∧
    (((bitmasks_at (right_rounded mlvolts)).isSome = true ∧
      (bitmasks_at (volt_middle mlvolts)).isSome = true ∧
      (bitmasks_at (volt_left mlvolts)).isSome = true) ↔
        (mlvolts < 10000 ∧ mlvolts % 100 < 95)) ∧
    ((set_display_from_batt ⟨mlvolts, percent, 2⟩ d).isSome = true ↔
        (mlvolts < 10000 ∧ mlvolts % 100 < 95)) ∧
    (¬ (mlvolts < 10000 ∧ mlvolts % 100 < 95) →
        right_rounded mlvolts = 10 ∨ 10 ≤ volt_left mlvolts) := by
  have hv := volt_indices_in_range mlvolts h
  refine ⟨hv, ?_, ?_, ?_⟩
  · rw [bitmasks_at_isSome, bitmasks_at_isSome, bitmasks_at_isSome]
    exact hv
  · rw [set_display_volt_isSome]
    exact hv
  · intro hn
    obtain ⟨e1, -, e3⟩ := volt_digits_nonneg mlvolts h
    rw [e1, e3]
    by_contra hc
    apply hn
    split_ifs at hc <;> omega

/-- Witness for C18 at `mlvolts` = 3087, inside the domain. -/
theorem C18_voltage_branch_domain_witness :
    (0 : Int) ≤ 3087 ∧
    ((set_display_from_batt ⟨3087, 10, 2⟩ 0).isSome = true ↔
      ((3087 : Int) < 10000 ∧ (3087 : Int) % 100 < 95)) :=
  ⟨by decide, (C18_voltage_branch_domain 3087 10 0 (by decide)).2.2.1⟩

/-! ## The layout of the word -/

/-- Every word the encoder produces, read group by group. -/
theorem set_display_from_batt_fields (batt : batt_t) (d r w : Int)
    (h : set_display_from_batt batt d = some (r, w)) :
    ∃ ind rt md lf : Int, (ind = 6 ∨ ind = 1) ∧ (0 ≤ rt ∧ rt < 128) ∧
      (0 ≤ md ∧ md < 128) ∧ (0 ≤ lf ∧ lf < 128) ∧
      w = ind + rt * 2 ^ 3 + md * 2 ^ 10 + lf * 2 ^ 17 + bar_field batt.percent * 2 ^ 24 ∧
      bits w 0 3 = ind ∧ bits w 3 7 = rt ∧ bits w 10 7 = md ∧ bits w 17 7 = lf ∧
      bits w 24 5 = bar_field batt.percent ∧ 0 ≤ w ∧ w < 2 ^ 29 := by
  obtain ⟨-, ind, rt, md, lf, hind, hrt, hmd, hlf, -, hw⟩ :=
    set_display_from_batt_packed batt d r w h
  have gb := bar_field_bounds batt.percent
  have hi : 0 ≤ ind ∧ ind < 8 := by rcases hind with rfl | rfl <;> norm_num
  have hb := bits_of_packed ind rt md lf (bar_field batt.percent) hi.1 hi.2 hrt.1 hrt.2
    hmd.1 hmd.2 hlf.1 hlf.2 gb.1 gb.2
  rw [← hw] at hb
  exact ⟨ind, rt, md, lf, hind, hrt, hmd, hlf, hw, hb⟩

/-- Shifting right and masking a non-negative word reads the same field as `bits`. -/
theorem land_shr_eq_bits (w : Int) (lo width : Nat) (h : 0 ≤ w) :
    Int.land (shr w lo) (2 ^ width - 1) = bits w lo width := by
  obtain ⟨n, rfl⟩ := Int.eq_ofNat_of_zero_le h
  have e1 : shr (n : Int) lo = ((n >>> lo : Nat) : Int) := rfl
  have e2 : (2 ^ width - 1 : Int) = ((2 ^ width - 1 : Nat) : Int) := by
    have : 1 ≤ 2 ^ width := Nat.one_le_two_pow
    push_cast [Nat.cast_sub this]
    rfl
  rw [e1, e2]
  have e3 : Int.land ((n >>> lo : Nat) : Int) ((2 ^ width - 1 : Nat) : Int)
      = (((n >>> lo) &&& (2 ^ width - 1) : Nat) : Int) := rfl
  rw [e3, Nat.and_pow_two_sub_one_eq_mod, Nat.shiftRight_eq_div_pow]
  unfold bits
  push_cast
  rfl

/-- C15: voltage branch (`batt.mode == 2`), `0 ≤ mlvolts < 10000`, the rounded digit not
exceeding 9: a word is produced whose bits 0-2 hold `0b110`, bits 3-9 the glyph of
`(mlvolts div 10) mod 10` plus 1 when `mlvolts mod 10 ≥ 5`, bits 10-16 the glyph of
`(mlvolts div 100) mod 10` and bits 17-23 the glyph of `mlvolts div 1000`. -/
theorem C15_voltage_branch_layout (mlvolts percent d : Int)
    (h0 : 0 ≤ mlvolts) (h1 : mlvolts < 10000)
    (h2 : ¬ (mlvolts % 10 ≥ 5 ∧ mlvolts / 10 % 10 = 9)) :
    ∃ w, set_display_from_batt ⟨mlvolts, percent, 2⟩ d = some (0, w) ∧
      bits w 0 3 = 0b110 ∧
      bits w 3 7 = glyph (mlvolts / 10 % 10 + (if mlvolts % 10 ≥ 5 then 1 else 0)).toNat ∧
      bits w 10 7 = glyph (mlvolts / 100 % 10).toNat ∧
      bits w 17 7 = glyph (mlvolts / 1000).toNat := by
  have hdom : mlvolts < 10000 ∧ mlvolts % 100 < 95 := ⟨h1, by omega⟩
  obtain ⟨hr, hm, hl⟩ := (volt_indices_in_range mlvolts h0).mpr hdom
  obtain ⟨e1, e2, e3⟩ := volt_digits_nonneg mlvolts h0
  refine ⟨_, set_display_volt mlvolts percent d hr hm hl, ?_⟩
  have g1 := glyph_bounds (right_rounded mlvolts).toNat
  have g2 := glyph_bounds (volt_middle mlvolts).toNat
  have g3 := glyph_bounds (volt_left mlvolts).toNat
  have gb := bar_field_bounds percent
  obtain ⟨b0, b3, b10, b17, -, -, -⟩ := bits_of_packed 6 _ _ _ _ (by norm_num) (by norm_num)
    g1.1 g1.2 g2.1 g2.2 g3.1 g3.2 gb.1 gb.2
  rw [b0, b3, b10, b17, e1, e2, e3]
  exact ⟨rfl, rfl, rfl, rfl⟩

/-- Witness for C15 at `mlvolts` = 3087: the groups show 3, 0, 9. -/
theorem C15_voltage_branch_layout_witness :
    (0 : Int) ≤ 3087 ∧ (3087 : Int) < 10000 ∧
    ¬ ((3087 : Int) % 10 ≥ 5 ∧ (3087 : Int) / 10 % 10 = 9) ∧
    ∃ w, set_display_from_batt ⟨3087, 10, 2⟩ 0 = some (0, w) ∧
      bits w 0 3 = 0b110 ∧
      bits w 3 7 = glyph ((3087 : Int) / 10 % 10 + (if (3087 : Int) % 10 ≥ 5 then 1 else 0)).toNat ∧
      bits w 10 7 = glyph ((3087 : Int) / 100 % 10).toNat ∧
      bits w 17 7 = glyph ((3087 : Int) / 1000).toNat :=
  ⟨by decide, by decide, by decide,
    C15_voltage_branch_layout 3087 10 0 (by decide) (by decide) (by decide)⟩

/-- The encoder is defined on every reading whose mode is not 2 and whose percent is not
negative. -/
theorem set_display_isSome_of_mode_ne_two (batt : batt_t) (d : Int) (hmode : batt.mode ≠ 2)
    (h0 : 0 ≤ batt.percent) :
    (set_display_from_batt batt d).isSome = true := by
  have h10 : (0 : Int) ≤ 10 := by norm_num
  have m0 : Int.tmod batt.percent 10 = batt.percent % 10 := Int.tmod_eq_emod h0 h10
  have d0 : Int.tdiv batt.percent 10 = batt.percent / 10 := Int.tdiv_eq_ediv h0 h10
  have n1 : 0 ≤ batt.percent / 10 := Int.ediv_nonneg h0 h10
  have m1 : Int.tmod (batt.percent / 10) 10 = batt.percent / 10 % 10 := Int.tmod_eq_emod n1 h10
  have d1 : Int.tdiv (batt.percent / 10) 10 = batt.percent / 10 / 10 := Int.tdiv_eq_ediv n1 h10
  have n2 : 0 ≤ batt.percent / 10 / 10 := Int.ediv_nonneg n1 h10
  have m2 : Int.tmod (batt.percent / 10 / 10) 10 = batt.percent / 10 / 10 % 10 :=
    Int.tmod_eq_emod n2 h10
  rw [set_display_from_batt_eq, set_digits_pct batt hmode, m0, d0, m1, d1, m2]
  rw [bitmasks_at_of_range (batt.percent % 10) (by omega) (by omega)]
  rw [bitmasks_at_of_range (batt.percent / 10 % 10) (by omega) (by omega)]
  rw [bitmasks_at_of_range (batt.percent / 10 / 10 % 10) (by omega) (by omega)]
  split_ifs with c1 c2
  · rfl
  · rw [bitmasks_at_of_range (batt.percent / 10) (by omega) (by omega)]
    rfl
  · rfl

/-- C12: for a reading with `percent` in `[0, 100]`, whatever its mode and `mlvolts`, bits
24-28 of any word the encoder produces are `0b00000` below 5, `0b00001` on 5..29, `0b00011`
on 30..49, `0b00111` on 50..69, `0b01111` on 70..89 and `0b11111` on 90..100; a second
reading with the same percent has the same bar field; and a word is produced for every
reading of mode 1 and for every reading of mode 2 whose voltage indices are in range. -/
theorem C12_bar_thresholds (batt : batt_t) (d : Int)
    (h0 : 0 ≤ batt.percent) (h100 : batt.percent ≤ 100) :
    (∀ r w : Int, set_display_from_batt batt d = some (r, w) →
      (batt.percent < 5 → bits w 24 5 = 0b00000) ∧
      (5 ≤ batt.percent → batt.percent ≤ 29 → bits w 24 5 = 0b00001) ∧
      (30 ≤ batt.percent → batt.percent ≤ 49 → bits w 24 5 = 0b00011) ∧
      (50 ≤ batt.percent → batt.percent ≤ 69 → bits w 24 5 = 0b00111) ∧
      (70 ≤ batt.percent → batt.percent ≤ 89 → bits w 24 5 = 0b01111) ∧
      (90 ≤ batt.percent → bits w 24 5 = 0b11111) ∧
      (∀ (batt2 : batt_t) (d2 r2 w2 : Int), batt2.percent = batt.percent →
        set_display_from_batt batt2 d2 = some (r2, w2) → bits w2 24 5 = bits w 24 5)) ∧
    (batt.mode = 1 → (set_display_from_batt batt d).isSome = true) ∧
    (batt.mode = 2 → 0 ≤ batt.mlvolts → batt.mlvolts < 10000 → batt.mlvolts % 100 < 95 →
      (set_display_from_batt batt d).isSome = true) := by
  refine ⟨?_, ?_, ?_⟩
  · intro r w hw
    obtain ⟨_, _, _, _, -, -, -, -, -, -, -, -, -, hb, -, -⟩ :=
      set_display_from_batt_fields batt d r w hw
    rw [hb]
    refine ⟨?_, ?_, ?_, ?_, ?_, ?_, ?_⟩
    · intro h
      unfold bar_field
      split_ifs <;> first | rfl | omega
    · intro h1 h2
      unfold bar_field
      split_ifs <;> first | rfl | omega
    · intro h1 h2
      unfold bar_field
      split_ifs <;> first | rfl | omega
    · intro h1 h2
      unfold bar_field
      split_ifs <;> first | rfl | omega
    · intro h1 h2
      unfold bar_field
      split_ifs <;> first | rfl | omega
    · intro h1
      unfold bar_field
      split_ifs <;> first | rfl | omega
    · intro batt2 d2 r2 w2 hp hw2
      obtain ⟨_, _, _, _, -, -, -, -, -, -, -, -, -, hb2, -, -⟩ :=
        set_display_from_batt_fields batt2 d2 r2 w2 hw2
      rw [hb2, hp]
  · intro hm
    exact set_display_isSome_of_mode_ne_two batt d (by rw [hm]; decide) h0
  · intro hm hv0 hv1 hv2
    obtain ⟨hr, hmid, hl⟩ := (volt_indices_in_range batt.mlvolts hv0).mpr ⟨hv1, hv2⟩
    have e : batt = ⟨batt.mlvolts, batt.percent, 2⟩ := by
      cases batt; simp only [batt_t.mk.injEq, true_and]; exact hm
    rw [e, set_display_volt _ _ d hr hmid hl]
    rfl

/-- Witness for C12 at `percent` = 12 in mode 2 and mode 1: only bar 1 is lit. -/
theorem C12_bar_thresholds_witness :
    ((0 : Int) ≤ (batt_t.mk 3100 12 2).percent ∧ (batt_t.mk 3100 12 2).percent ≤ 100) ∧
    set_display_from_batt ⟨3100, 12, 2⟩ 0 = some (0, 27138558) ∧
    bits 27138558 24 5 = 0b00001 ∧
    set_display_from_batt ⟨0, 12, 1⟩ 7 = some (0, 16784089) ∧
    bits 16784089 24 5 = bits 27138558 24 5 :=
  ⟨⟨by decide, by decide⟩, by decide,
    ((C12_bar_thresholds ⟨3100, 12, 2⟩ 0 (by decide) (by decide)).1 0 27138558
      (by decide)).2.1 (by decide) (by decide),
    by decide,
    ((C12_bar_thresholds ⟨3100, 12, 2⟩ 0 (by decide) (by decide)).1 0 27138558
      (by decide)).2.2.2.2.2.2 ⟨0, 12, 1⟩ 7 0 16784089 rfl (by decide)⟩

/-- One step up in percent never switches a bar off, as long as the step stays within
`[0, 100]`. -/
theorem bar_field_step (p : Int) (h0 : 0 ≤ p) (h99 : p ≤ 99) :
    Int.land (bar_field p) (bar_field (p + 1)) = bar_field p := by
  interval_cases p <;> decide

/-- C13, as stated, fails at `percent = 100`: the encoder lights all five bars at 100 and
none at 101, so the bars lit at 100 are not among those lit at 101. -/
theorem C13_bars_not_monotone_at_100 :
    set_display_from_batt ⟨0, 100, 1⟩ 0 = some (0, 520945145) ∧
    set_display_from_batt ⟨0, 100 + 1, 1⟩ 0 = some (0, 49) ∧
    bits 520945145 24 5 = 0b11111 ∧ bits 49 24 5 = 0b00000 ∧
    Int.land (bits 520945145 24 5) (bits 49 24 5) ≠ bits 520945145 24 5 := by
  decide

/-- C13 (amended): for every `percent` in `[0, 99]`, so that `percent + 1` is still in
`[0, 100]`, the bar bits (24-28) lit in a word produced for `percent` are all lit in a word
produced for `percent + 1`, whatever the modes and voltages of the two readings. -/
theorem C13_bars_monotone (batt1 batt2 : batt_t) (d1 d2 r1 w1 r2 w2 : Int)
    (h0 : 0 ≤ batt1.percent) (h99 : batt1.percent ≤ 99)
    (hp : batt2.percent = batt1.percent + 1)
    (hw1 : set_display_from_batt batt1 d1 = some (r1, w1))
    (hw2 : set_display_from_batt batt2 d2 = some (r2, w2)) :
    Int.land (bits w1 24 5) (bits w2 24 5) = bits w1 24 5 ∧
    (∀ i : Nat, (bits w1 24 5).testBit i = true → (bits w2 24 5).testBit i = true) := by
  obtain ⟨_, _, _, _, -, -, -, -, -, -, -, -, -, hb1, -, -⟩ :=
    set_display_from_batt_fields batt1 d1 r1 w1 hw1
  obtain ⟨_, _, _, _, -, -, -, -, -, -, -, -, -, hb2, -, -⟩ :=
    set_display_from_batt_fields batt2 d2 r2 w2 hw2
  have hstep := bar_field_step batt1.percent h0 h99
  rw [hb1, hb2, hp]
  refine ⟨hstep, ?_⟩
  intro i hi
  have := Int.testBit_land (bar_field batt1.percent) (bar_field (batt1.percent + 1)) i
  rw [hstep, hi] at this
  simpa using this.symm

/-- Witness for the amended C13 at `percent` = 29 and 30 (bar 1, then bars 1 and 2). -/
theorem C13_bars_monotone_witness :
    ((0 : Int) ≤ (batt_t.mk 0 29 1).percent ∧ (batt_t.mk 0 29 1).percent ≤ 99 ∧
      (batt_t.mk 3300 30 2).percent = (batt_t.mk 0 29 1).percent + 1 ∧
      set_display_from_batt ⟨0, 29, 1⟩ 0 = some (0, 16871289) ∧
      set_display_from_batt ⟨3300, 30, 2⟩ 0 = some (0, 60767742)) ∧
    Int.land (bits 16871289 24 5) (bits 60767742 24 5) = bits 16871289 24 5 :=
  ⟨⟨by decide, by decide, by decide, by decide, by decide⟩,
    (C13_bars_monotone ⟨0, 29, 1⟩ ⟨3300, 30, 2⟩ 0 0 0 _ 0 _ (by decide) (by decide)
      (by decide) (by decide) (by decide)).1⟩

/-- A value below `2^k` and a value shifted by `k` have no bit in common. -/
theorem land_shl_disjoint (x b : Int) (k : Nat) (hx0 : 0 ≤ x) (hx : x < 2 ^ k) (hb : 0 ≤ b) :
    Int.land x (shl b k) = 0 := by
  obtain ⟨n, rfl⟩ := Int.eq_ofNat_of_zero_le hx0
  obtain ⟨m, rfl⟩ := Int.eq_ofNat_of_zero_le hb
  have hn : n < 2 ^ k := by exact_mod_cast hx
  have e : shl (m : Int) k = ((2 ^ k * m : Nat) : Int) := by
    unfold shl; push_cast; ring
  rw [e]
  have h : Int.land (n : Int) ((2 ^ k * m : Nat) : Int) = ((n &&& 2 ^ k * m : Nat) : Int) := rfl
  rw [h]
  have hz : n &&& 2 ^ k * m = 0 := by
    apply Nat.eq_of_testBit_eq
    intro i
    rw [Nat.testBit_and, Nat.testBit_mul_pow_two, Nat.zero_testBit]
    by_cases hik : k ≤ i
    · have : n < 2 ^ i := lt_of_lt_of_le hn (Nat.pow_le_pow_right (by norm_num) hik)
      rw [Nat.testBit_lt_two_pow this]
      rfl
    · simp [hik]
  rw [hz]
  rfl

/-- The digit part of the word is the OR of the four operands of `digit_groups`, each shifted
to its place, onto the word found at `*display`. -/
theorem set_digits_eq_groups (batt : batt_t) (display : Int) :
    set_digits batt display =
      (digit_groups batt).map fun g =>
        Int.lor (Int.lor (Int.lor (Int.lor display (shl g.1 0)) (shl g.2.1 3))
          (shl g.2.2.1 10)) (shl g.2.2.2 17) := by
  unfold set_digits digit_groups
  simp only []
  split_ifs
  · cases bitmasks_at (right_rounded batt.mlvolts) with
    | none => rfl
    | some r =>
      cases bitmasks_at (volt_middle batt.mlvolts) with
      | none => rfl
      | some m => cases bitmasks_at (volt_left batt.mlvolts) <;> rfl
  · cases bitmasks_at (Int.tmod batt.percent 10) with
    | none => rfl
    | some r =>
      cases bitmasks_at (Int.tmod (Int.tdiv batt.percent 10) 10) with
      | none => rfl
      | some m =>
        cases bitmasks_at (Int.tmod (Int.tdiv (Int.tdiv batt.percent 10) 10) 10) <;> rfl
  · cases bitmasks_at (Int.tmod batt.percent 10) with
    | none => rfl
    | some r => cases bitmasks_at (Int.tdiv batt.percent 10) <;> rfl
  · cases bitmasks_at (Int.tmod batt.percent 10) <;> rfl

/-- The operands of `digit_groups`: the indicator constant of the branch and three patterns of
seven bits. -/
theorem digit_groups_bounds (batt : batt_t) (i r m l : Int)
    (h : digit_groups batt = some (i, r, m, l)) :
    i = (if batt.mode = 2 then 0b110 else 0b001) ∧ (0 ≤ r ∧ r < 128) ∧ (0 ≤ m ∧ m < 128) ∧
      (0 ≤ l ∧ l < 128) := by
  unfold digit_groups at h
  simp only [] at h
  split_ifs at h with c1 c2 c3
  · cases hr : bitmasks_at (right_rounded batt.mlvolts) with
    | none => simp [hr] at h
    | some r0 =>
      cases hm : bitmasks_at (volt_middle batt.mlvolts) with
      | none => simp [hr, hm] at h
      | some m0 =>
        cases hl : bitmasks_at (volt_left batt.mlvolts) with
        | none => simp [hr, hm, hl] at h
        | some l0 =>
          have br := bitmasks_at_some _ _ hr
          have bm := bitmasks_at_some _ _ hm
          have bl := bitmasks_at_some _ _ hl
          simp [hr, hm, hl] at h
          obtain ⟨rfl, rfl, rfl, rfl⟩ := h
          exact ⟨(if_pos c1).symm, ⟨by omega, by omega⟩, ⟨by omega, by omega⟩, ⟨by omega, by omega⟩⟩
  · cases hr : bitmasks_at (Int.tmod batt.percent 10) with
    | none => simp [hr] at h
    | some r0 =>
      cases hm : bitmasks_at (Int.tmod (Int.tdiv batt.percent 10) 10) with
      | none => simp [hr, hm] at h
      | some m0 =>
        cases hl : bitmasks_at (Int.tmod (Int.tdiv (Int.tdiv batt.percent 10) 10) 10) with
        | none => simp [hr, hm, hl] at h
        | some l0 =>
          have br := bitmasks_at_some _ _ hr
          have bm := bitmasks_at_some _ _ hm
          have bl := bitmasks_at_some _ _ hl
          simp [hr, hm, hl] at h
          obtain ⟨rfl, rfl, rfl, rfl⟩ := h
          exact ⟨(if_neg c1).symm, ⟨by omega, by omega⟩, ⟨by omega, by omega⟩, ⟨by omega, by omega⟩⟩
  · cases hr : bitmasks_at (Int.tmod batt.percent 10) with
    | none => simp [hr] at h
    | some r0 =>
      cases hm : bitmasks_at (Int.tdiv batt.percent 10) with
      | none => simp [hr, hm] at h
      | some m0 =>
        have br := bitmasks_at_some _ _ hr
        have bm := bitmasks_at_some _ _ hm
        simp [hr, hm] at h
        obtain ⟨rfl, rfl, rfl, rfl⟩ := h
        exact ⟨(if_neg c1).symm, ⟨by omega, by omega⟩, ⟨by omega, by omega⟩, ⟨le_rfl, by norm_num⟩⟩
  · cases hr : bitmasks_at (Int.tmod batt.percent 10) with
    | none => simp [hr] at h
    | some r0 =>
      have br := bitmasks_at_some _ _ hr
      simp [hr] at h
      obtain ⟨rfl, rfl, rfl, rfl⟩ := h
      exact ⟨(if_neg c1).symm, ⟨by omega, by omega⟩, ⟨le_rfl, by norm_num⟩, ⟨le_rfl, by norm_num⟩⟩

/-- Two fields placed in separate bit ranges have no bit in common. -/
theorem land_fields_disjoint (a b : Int) (ka wa kb : Nat) (ha0 : 0 ≤ a) (ha : a < 2 ^ wa)
    (hk : ka + wa ≤ kb) (hb : 0 ≤ b) :
    Int.land (shl a ka) (shl b kb) = 0 := by
  apply land_shl_disjoint _ _ _ _ _ hb
  · unfold shl
    positivity
  · unfold shl
    have h1 : a * 2 ^ ka < 2 ^ wa * 2 ^ ka :=
      mul_lt_mul_of_pos_right ha (by positivity)
    have h2 : (2 : Int) ^ wa * 2 ^ ka ≤ 2 ^ kb := by
      rw [← pow_add]
      exact pow_le_pow_right₀ (by norm_num) (by omega)
    exact lt_of_lt_of_le h1 h2

/-- C14: every word `set_display_from_batt` produces (i.e. whenever the table indices are in
range) is the OR of the five operands the code builds, each shifted to its place: the
indicator constant of the branch taken, the right, middle and left patterns of
`digit_groups` (lines 81-109) and the bar value of lines 110-114.  These five shifted operands
have pairwise no bit in common, so the OR equals
`indicator + right*2^3 + middle*2^10 + left*2^17 + bars*2^24`, with `indicator < 2^3`, each
digit pattern `< 2^7` and `bars < 2^5`; the word lies in `[0, 2^29)`; each operand is
recovered by shifting and masking at bits 0-2, 3-9, 10-16, 17-23, 24-28; and the result is
the same for every integer previously stored at `*display`. -/
theorem C14_packed_layout (batt : batt_t) (d r w : Int)
    (h : set_display_from_batt batt d = some (r, w)) :
    r = 0 ∧ 0 ≤ w ∧ w < 2 ^ 29 ∧
    (∃ indicator right middle left bars x : Int,
      digit_groups batt = some (indicator, right, middle, left) ∧
      indicator = (if batt.mode = 2 then 0b110 else 0b001) ∧
      bars = bar_field batt.percent ∧
      set_digits batt 0 = some x ∧
      x = Int.lor (Int.lor (Int.lor (Int.lor 0 (shl indicator 0)) (shl right 3))
        (shl middle 10)) (shl left 17) ∧
      set_bars batt x = Int.lor x (shl bars 24) ∧
      w = Int.lor (Int.lor (Int.lor (Int.lor (Int.lor 0 (shl indicator 0)) (shl right 3))
        (shl middle 10)) (shl left 17)) (shl bars 24) ∧
      (0 ≤ indicator ∧ indicator < 2 ^ 3) ∧ (0 ≤ right ∧ right < 2 ^ 7) ∧
      (0 ≤ middle ∧ middle < 2 ^ 7) ∧ (0 ≤ left ∧ left < 2 ^ 7) ∧ (0 ≤ bars ∧ bars < 2 ^ 5) ∧
      (Int.land (shl indicator 0) (shl right 3) = 0 ∧
        Int.land (shl indicator 0) (shl middle 10) = 0 ∧
        Int.land (shl indicator 0) (shl left 17) = 0 ∧
        Int.land (shl indicator 0) (shl bars 24) = 0 ∧
        Int.land (shl right 3) (shl middle 10) = 0 ∧
        Int.land (shl right 3) (shl left 17) = 0 ∧
        Int.land (shl right 3) (shl bars 24) = 0 ∧
        Int.land (shl middle 10) (shl left 17) = 0 ∧
        Int.land (shl middle 10) (shl bars 24) = 0 ∧
        Int.land (shl left 17) (shl bars 24) = 0) ∧
      w = indicator + right * 2 ^ 3 + middle * 2 ^ 10 + left * 2 ^ 17 + bars * 2 ^ 24 ∧
      Int.land (shr w 0) (2 ^ 3 - 1) = indicator ∧
      Int.land (shr w 3) (2 ^ 7 - 1) = right ∧
      Int.land (shr w 10) (2 ^ 7 - 1) = middle ∧
      Int.land (shr w 17) (2 ^ 7 - 1) = left ∧
      Int.land (shr w 24) (2 ^ 5 - 1) = bars) ∧
    (∀ d2 : Int, set_display_from_batt batt d2 = some (r, w)) := by
  have hprior : ∀ d2 : Int, set_display_from_batt batt d2 = some (r, w) := fun d2 => by
    rw [set_display_from_batt_prior batt d2 d]
    exact h
  rw [set_display_from_batt_eq] at h
  have hdg := set_digits_eq_groups batt 0
  cases hg : digit_groups batt with
  | none =>
    rw [hg] at hdg
    rw [hdg] at h
    cases h
  | some g =>
    obtain ⟨ind, rt, md, lf⟩ := g
    obtain ⟨hind, hrt, hmd, hlf⟩ := digit_groups_bounds batt ind rt md lf hg
    have hi : 0 ≤ ind ∧ ind < 8 := by
      rw [hind]
      split_ifs <;> norm_num
    have gb := bar_field_bounds batt.percent
    rw [hg] at hdg
    simp only [Option.map_some'] at hdg
    have hpack := lor_pack ind rt md lf hi.1 hi.2 hrt.1 hrt.2 hmd.1 hmd.2 hlf.1
    have hx0 : 0 ≤ ind + rt * 2 ^ 3 + md * 2 ^ 10 + lf * 2 ^ 17 := by norm_num; omega
    have hx24 : ind + rt * 2 ^ 3 + md * 2 ^ 10 + lf * 2 ^ 17 < 2 ^ 24 := by norm_num; omega
    have hbars := set_bars_eq batt _ hx0 hx24
    have hlor := lor_shl_disjoint _ (bar_field batt.percent) 24 hx0 hx24 gb.1
    rw [hdg, hpack] at h
    simp only [Option.some.injEq, Prod.mk.injEq] at h
    obtain ⟨hr0, hw⟩ := h
    rw [hbars] at hw
    obtain ⟨b0, b3, b10, b17, b24, hw0, hw29⟩ := bits_of_packed ind rt md lf
      (bar_field batt.percent) hi.1 hi.2 hrt.1 hrt.2 hmd.1 hmd.2 hlf.1 hlf.2 gb.1 gb.2
    rw [hw] at b0 b3 b10 b17 b24 hw0 hw29
    refine ⟨hr0.symm, hw0, hw29, ⟨ind, rt, md, lf, bar_field batt.percent, _, rfl, hind, rfl,
      hdg, rfl, ?_, ?_, ?_, ?_, ?_, ?_, ?_, ?_, hw.symm, ?_, ?_, ?_, ?_, ?_⟩, hprior⟩
    · rw [hpack, hbars, hlor]
    · rw [hpack, hlor, ← hw]
    · norm_num; exact hi
    · norm_num; exact hrt
    · norm_num; exact hmd
    · norm_num; exact hlf
    · norm_num; exact gb
    · exact ⟨land_fields_disjoint ind rt 0 3 3 hi.1 (by norm_num; exact hi.2) le_rfl hrt.1,
        land_fields_disjoint ind md 0 3 10 hi.1 (by norm_num; exact hi.2) (by norm_num) hmd.1,
        land_fields_disjoint ind lf 0 3 17 hi.1 (by norm_num; exact hi.2) (by norm_num) hlf.1,
        land_fields_disjoint ind _ 0 3 24 hi.1 (by norm_num; exact hi.2) (by norm_num) gb.1,
        land_fields_disjoint rt md 3 7 10 hrt.1 (by norm_num; exact hrt.2) le_rfl hmd.1,
        land_fields_disjoint rt lf 3 7 17 hrt.1 (by norm_num; exact hrt.2) (by norm_num) hlf.1,
        land_fields_disjoint rt _ 3 7 24 hrt.1 (by norm_num; exact hrt.2) (by norm_num) gb.1,
        land_fields_disjoint md lf 10 7 17 hmd.1 (by norm_num; exact hmd.2) le_rfl hlf.1,
        land_fields_disjoint md _ 10 7 24 hmd.1 (by norm_num; exact hmd.2) (by norm_num) gb.1,
        land_fields_disjoint lf _ 17 7 24 hlf.1 (by norm_num; exact hlf.2) le_rfl gb.1⟩
    · rw [land_shr_eq_bits w 0 3 hw0, b0]
    · rw [land_shr_eq_bits w 3 7 hw0, b3]
    · rw [land_shr_eq_bits w 10 7 hw0, b10]
    · rw [land_shr_eq_bits w 17 7 hw0, b17]
    · rw [land_shr_eq_bits w 24 5 hw0, b24]

/-- Witness for C14 at the reading `mlvolts = 3100, percent = 12, mode = 2`: the operands are
`0b110`, the glyphs of 0, 1 and 3, and bar value 1. -/
theorem C14_packed_layout_witness :
    set_display_from_batt ⟨3100, 12, 2⟩ 99 = some (0, 27138558) ∧
    digit_groups ⟨3100, 12, 2⟩ = some (0b110, glyph 0, glyph 1, glyph 3) ∧
    bar_field 12 = 0b00001 ∧
    (27138558 : Int) = 0b110 + glyph 0 * 2 ^ 3 + glyph 1 * 2 ^ 10 + glyph 3 * 2 ^ 17
      + 0b00001 * 2 ^ 24 ∧
    (0 : Int) ≤ 27138558 ∧ (27138558 : Int) < 2 ^ 29 ∧
    (∀ d2 : Int, set_display_from_batt ⟨3100, 12, 2⟩ d2 = some (0, 27138558)) :=
  ⟨by decide, by decide, by decide, by decide,
    (C14_packed_layout ⟨3100, 12, 2⟩ 99 0 27138558 (by decide)).2.1,
    (C14_packed_layout ⟨3100, 12, 2⟩ 99 0 27138558 (by decide)).2.2.1,
    (C14_packed_layout ⟨3100, 12, 2⟩ 99 0 27138558 (by decide)).2.2.2.2⟩

/-- C16: for every integer `percent`, also outside `[0, 100]`, and every mode, the bar field
(bits 24-28) of any word the encoder produces is one of `0b00000`, `0b00001`, `0b00011`,
`0b00111`, `0b01111`, `0b11111`, i.e. `2^k - 1` for some `k ≤ 5`, so a lit bar has every
lower bar lit. -/
theorem C16_bars_cumulative (batt : batt_t) (d r w : Int)
    (h : set_display_from_batt batt d = some (r, w)) :
    (bits w 24 5 = 0b00000 ∨ bits w 24 5 = 0b00001 ∨ bits w 24 5 = 0b00011 ∨
      bits w 24 5 = 0b00111 ∨ bits w 24 5 = 0b01111 ∨ bits w 24 5 = 0b11111) ∧
    (∃ k : Nat, k ≤ 5 ∧ bits w 24 5 = 2 ^ k - 1) ∧
    (∀ j, j < 5 → ∀ i, i ≤ j →
      (bits w 24 5).testBit j = true → (bits w 24 5).testBit i = true) := by
  obtain ⟨_, _, _, _, -, -, -, -, -, -, -, -, -, hb, -, -⟩ :=
    set_display_from_batt_fields batt d r w h
  rw [hb]
  have hv := bar_field_values batt.percent
  refine ⟨hv, ?_, ?_⟩
  · rcases hv with e | e | e | e | e | e <;> rw [e]
    · exact ⟨0, by norm_num, by norm_num⟩
    · exact ⟨1, by norm_num, by norm_num⟩
    · exact ⟨2, by norm_num, by norm_num⟩
    · exact ⟨3, by norm_num, by norm_num⟩
    · exact ⟨4, by norm_num, by norm_num⟩
    · exact ⟨5, by norm_num, by norm_num⟩
  · rcases hv with e | e | e | e | e | e <;> rw [e] <;> decide

/-- Witness for C16 at `percent = 250` (outside `[0, 100]`, no bar) and `percent = 75`. -/
theorem C16_bars_cumulative_witness :
    (set_display_from_batt ⟨3100, 250, 2⟩ 0 = some (0, 10361342) ∧
      ∃ k : Nat, k ≤ 5 ∧ bits 10361342 24 5 = 2 ^ k - 1) ∧
    (set_display_from_batt ⟨3100, 75, 1⟩ 0 = some (0, 251666281) ∧
      ∃ k : Nat, k ≤ 5 ∧ bits 251666281 24 5 = 2 ^ k - 1) :=
  ⟨⟨by decide, (C16_bars_cumulative ⟨3100, 250, 2⟩ 0 0 10361342 (by decide)).2.1⟩,
   ⟨by decide, (C16_bars_cumulative ⟨3100, 75, 1⟩ 0 0 251666281 (by decide)).2.1⟩⟩

/-- C17: the table `bitmasks` is the standard seven-segment encoding with bit 0 = segment a
through bit 6 = segment g: it has ten entries, for every digit `d` in 0..9 bit `i` of
`bitmasks[d]` is set exactly when segment `i` is lit in the standard rendering of `d`, and
every entry is non-negative and below `2^7`. -/
theorem C17_glyph_table_standard :
    bitmasks.length = 10 ∧
    (∀ (digit : Fin 10) (i : Fin 7),
      (bitmasks_at digit.val = some (glyph digit.val)) ∧
      ((glyph digit.val).testBit i.val = true ↔ i.val ∈ standard_segments digit.val)) ∧
    (∀ digit : Fin 10, 0 ≤ glyph digit.val ∧ glyph digit.val < 2 ^ 7) ∧
    (∀ g ∈ bitmasks, 0 ≤ g ∧ g < 2 ^ 7) := by
  refine ⟨by decide, by decide, by decide, by decide⟩

/-- C19: in the percent display (`batt.mode == 1`) the word depends on `percent` only: two
readings of mode 1 with the same `percent` in `[0, 100]` and arbitrary `mlvolts` (and arbitrary
prior words) give the same word, and that word is defined, so no table read is out of range;
the rounded voltage digit of lines 72-80 is never used as an index. -/
theorem C19_percent_word_ignores_mlvolts (mlvolts1 mlvolts2 percent d1 d2 : Int)
    (h0 : 0 ≤ percent) (h100 : percent ≤ 100) :
    set_display_from_batt ⟨mlvolts1, percent, 1⟩ d1
      = set_display_from_batt ⟨mlvolts2, percent, 1⟩ d2 ∧
    (∃ w, set_display_from_batt ⟨mlvolts1, percent, 1⟩ d1 = some (0, w) ∧
      set_display_from_batt ⟨mlvolts2, percent, 1⟩ d2 = some (0, w)) ∧
    (bitmasks_at (Int.tmod percent 10)).isSome = true ∧
    (10 ≤ percent → percent ≤ 99 → (bitmasks_at (Int.tdiv percent 10)).isSome = true) := by
  have e := set_display_percent mlvolts1 percent d1 h0 h100
  have h10 : (0 : Int) ≤ 10 := by norm_num
  refine ⟨rfl, ⟨_, e, ?_⟩, ?_, ?_⟩
  · rw [set_display_percent_indep mlvolts2 mlvolts1 percent d2 d1]
    exact e
  · rw [Int.tmod_eq_emod h0 h10, bitmasks_at_isSome]
    omega
  · intro h1 h2
    rw [Int.tdiv_eq_ediv h0 h10, bitmasks_at_isSome]
    omega

/-- Witness for C19 at `percent = 42` with `mlvolts` 3095 (where the rounded voltage digit
would be 10) and 0. -/
theorem C19_percent_word_ignores_mlvolts_witness :
    ((0 : Int) ≤ 42 ∧ (42 : Int) ≤ 100) ∧
    right_rounded 3095 = 10 ∧
    set_display_from_batt ⟨3095, 42, 1⟩ 5 = set_display_from_batt ⟨0, 42, 1⟩ 6 ∧
    set_display_from_batt ⟨3095, 42, 1⟩ 5 = some (0, 50436825) :=
  ⟨⟨by decide, by decide⟩, by decide,
    (C19_percent_word_ignores_mlvolts 3095 0 42 5 6 (by decide) (by decide)).1, by decide⟩

/-- The digit groups (bits 3-23) of the percent display, for `percent = n`. -/
theorem percent_digit_groups (mlvolts d : Int) (n : Nat) (w : Int)
    (h : set_display_from_batt ⟨mlvolts, (n : Int), 1⟩ d = some (0, w)) :
    (set_display_from_batt ⟨0, (n : Int), 1⟩ 0).map (fun r => bits r.2 3 21)
      = some (bits w 3 21) := by
  rw [set_display_percent_indep 0 mlvolts (n : Int) 0 d, h]
  rfl

set_option maxRecDepth 1000000 in
/-- The digit groups of the percent display determine `percent` on `0..100`. -/
theorem percent_digit_groups_injective :
    ∀ a b : Fin 101,
      (set_display_from_batt ⟨0, (a.val : Int), 1⟩ 0).map (fun r => bits r.2 3 21)
        = (set_display_from_batt ⟨0, (b.val : Int), 1⟩ 0).map (fun r => bits r.2 3 21) →
      a = b := by
  decide

/-- C20: the ten patterns of `bitmasks` are pairwise distinct and none is zero, and the
percent display (`batt.mode == 1`) is injective in `percent` over `[0, 100]`: two readings
with different percent values both produce a word, and the digit groups (bits 3-23) of the
two words differ. -/
theorem C20_percent_display_decodable :
    bitmasks.Nodup ∧ (∀ g ∈ bitmasks, g ≠ 0) ∧
    (∀ p q mlvolts1 mlvolts2 d1 d2 : Int, 0 ≤ p → p ≤ 100 → 0 ≤ q → q ≤ 100 → p ≠ q →
      ∃ w1 w2 : Int,
        set_display_from_batt ⟨mlvolts1, p, 1⟩ d1 = some (0, w1) ∧
        set_display_from_batt ⟨mlvolts2, q, 1⟩ d2 = some (0, w2) ∧
        bits w1 3 21 ≠ bits w2 3 21) := by
  refine ⟨by decide, by decide, ?_⟩
  intro p q mlvolts1 mlvolts2 d1 d2 hp0 hp100 hq0 hq100 hpq
  refine ⟨_, _, set_display_percent mlvolts1 p d1 hp0 hp100,
    set_display_percent mlvolts2 q d2 hq0 hq100, ?_⟩
  intro hbits
  apply hpq
  obtain ⟨a, rfl⟩ := Int.eq_ofNat_of_zero_le hp0
  obtain ⟨b, rfl⟩ := Int.eq_ofNat_of_zero_le hq0
  have ha : a < 101 := by omega
  have hb : b < 101 := by omega
  have e1 := percent_digit_groups mlvolts1 d1 a _
    (set_display_percent mlvolts1 (a : Int) d1 hp0 hp100)
  have e2 := percent_digit_groups mlvolts2 d2 b _
    (set_display_percent mlvolts2 (b : Int) d2 hq0 hq100)
  have hab := percent_digit_groups_injective ⟨a, ha⟩ ⟨b, hb⟩ (by
    show (set_display_from_batt ⟨0, (a : Int), 1⟩ 0).map (fun r => bits r.2 3 21)
      = (set_display_from_batt ⟨0, (b : Int), 1⟩ 0).map (fun r => bits r.2 3 21)
    rw [e1, e2, hbits])
  have : a = b := congrArg Fin.val hab
  rw [this]

end BattUpdate
